import Mathlib

/-!
Verification of the block-segmentation engine of `sphinx_gallery/block_parser.py`.

The development is a shallow embedding of the module's functions:

* `segStep` / `segRun` / `getBlocks` embed `BlockParser._get_blocks` (the central
  state machine), including `finalize_block` and `cleanup_multiline`;
* `pyDedent` embeds Python's `textwrap.dedent` (used by `finalize_block`);
* `continueTextHash` / `startSpecialHash` embed the compiled regular expressions
  `self.continue_text` and `self.start_special` for a language whose accepted
  comment starts are `#` and `#=` (the result of the comment-syntax probe for
  Python-like lexers, see `BlockParser.__init__`);
* `detectComments` embeds the comment-syntax detection loop of `__init__`;
* `configSplit` / `extractFileConfig` / `removeConfigComments` embed the
  `infile_config_pattern` machinery (`extract_file_config`,
  `remove_config_comments`);
* `removeIgnoreBlocks` embeds `remove_ignore_blocks` with its two
  `re.findall` flag counts and the `ignore_block_pattern` substitution.

Strings are handled through their character lists (`String.data`); lines of a
file never contain `'\n'`.  The pygments lexer is an external capability: the
machine consumes the per-line `(token kind, line text)` stream that
`_get_content_lines` produces, and the language-dependent compiled regexes are
fields of `GalleryParser`, instantiated concretely for the `#` language where a
claim needs a concrete run.
-/

namespace BlockParser

/-! ### Token kinds

`_get_blocks` distinguishes lines by the pygments token type of the first
non-whitespace token: `token in pygments.token.Whitespace` (the whitespace
class), membership in the tuple `COMMENT_TYPES = (Comment.Single, Comment,
Comment.Multiline)` (exact equality against each element, per the comment at
the top of the module which deliberately avoids `Comment.Preproc` etc.), and
the exact test `token == pygments.token.Comment.Multiline`. -/

inductive Tok where
  | ws             -- any token in the pygments `Whitespace` class
  | single         -- exactly `Comment.Single`
  | comment        -- exactly `Comment`
  | multi          -- exactly `Comment.Multiline`
  | other          -- anything else (names, operators, preprocessor comments, ...)
deriving DecidableEq, Repr

/-- `token in pygments.token.Whitespace`. -/
def Tok.isWs : Tok → Bool
  | .ws => true
  | _ => false

/-- `token in COMMENT_TYPES`. -/
def Tok.isComment : Tok → Bool
  | .single => true
  | .comment => true
  | .multi => true
  | _ => false

inductive Mode where
  | text
  | code
deriving DecidableEq, Repr

/-- Why the emitted block was closed (ghost information recorded by the
embedding; the Python generator does not return it, but every branch of
`_get_blocks` that yields a block corresponds to exactly one constructor). -/
inductive CloseReason where
  | blankLine   -- a blank line ended a text block (first branch)
  | markerLine  -- a line matching the active start pattern ended the block (second branch)
  | codeLine    -- a non-comment line ended a text block (fourth branch)
  | endOfInput  -- the final `if block: yield finalize_block(...)` after the loop
deriving DecidableEq, Repr

/-- One emitted `(label, content, line_number)` tuple of `_get_blocks`,
augmented with ghost fields used by the theorems: the half-open interval
`[spanStart, spanEnd)` of input line indices consumed into the block, whether
the block was opened while `start_text` was still `self.continue_text`
(i.e. as the unmarked first text block), and the closing reason. -/
structure Block where
  mode : Mode
  content : String
  startLine : Int
  spanStart : Nat
  spanEnd : Nat
  openedFirstText : Bool
  closedBy : CloseReason
deriving DecidableEq, Repr

/-! ### Character and line utilities -/

/-- The whitespace characters recognized by Python's `str.strip()` / the regex
class `\s` (ASCII range; the embedding's inputs are ASCII). -/
def pyIsSpace (c : Char) : Bool :=
  c = ' ' || c = '\t' || c = '\n' || c = '\r' || c = '\x0b' || c = '\x0c'

/-- `c` is a space or tab, the regex class `[ \t]`. -/
def isSpaceTab (c : Char) : Bool := c = ' ' || c = '\t'

/-- `not line.strip()`: the line contains only whitespace. -/
def isBlankL (l : List Char) : Bool := l.all pyIsSpace

/-- `text.split("\n")` on character lists: always returns one more part than
the number of `'\n'` characters. -/
def splitNl : List Char → List (List Char)
  | [] => [[]]
  | c :: rest =>
    if c = '\n' then [] :: splitNl rest
    else
      match splitNl rest with
      | l :: ls => (c :: l) :: ls
      | [] => [[c]]

/-- `"\n".join(lines)` on character lists. -/
def joinNl : List (List Char) → List Char
  | [] => []
  | [l] => l
  | l :: ls => l ++ '\n' :: joinNl ls

/-- `"\n".join(lines)` producing a `String`. -/
def joinNlStr (ls : List (List Char)) : String := ⟨joinNl ls⟩

/-! ### `textwrap.dedent`

`textwrap.dedent` first blanks out lines that consist solely of spaces/tabs
(`_whitespace_only_re.sub('', text)`), then computes the margin as the longest
common prefix of the `[ \t]*` indents of all lines containing a character
outside `[ \t\n]` (`_leading_whitespace_re`), and finally strips that margin
from the start of every line that carries it.  Both regex passes operate
line-by-line, so the embedding splits, processes the lines, and joins. -/

/-- Step 1 of `textwrap.dedent`: a line matching `^[ \t]+$` becomes empty. -/
def normBlankLine (l : List Char) : List Char :=
  if l ≠ [] && l.all isSpaceTab then [] else l

/-- A line contributing an indent to the margin computation: it has a
character outside `[ \t\n]` (lines here never contain `'\n'`). -/
def isContentLine (l : List Char) : Bool := l.any (fun c => !isSpaceTab c)

/-- The `[ \t]*` indent of a line. -/
def indentOf (l : List Char) : List Char := l.takeWhile isSpaceTab

/-- Longest common prefix of two character lists. -/
def lcp : List Char → List Char → List Char
  | a :: as, b :: bs => if a = b then a :: lcp as bs else []
  | _, _ => []

/-- The margin of `textwrap.dedent`: longest common prefix of the indents of
all content lines (empty when there is no content line, in which case the
final substitution is skipped — stripping an empty margin is the identity). -/
def marginOf (ls : List (List Char)) : List Char :=
  match ls.filter isContentLine with
  | [] => []
  | l :: rest => (rest.map indentOf).foldl lcp (indentOf l)

/-- Remove `m` from the front of `l` when it is a prefix (the final
`re.sub(r'(?m)^' + margin, '', text)` of `textwrap.dedent`). -/
def stripMargin (m l : List Char) : List Char :=
  if m.isPrefixOf l then l.drop m.length else l

/-- `textwrap.dedent` on a list of (newline-free) lines. -/
def dedentLines (ls : List (List Char)) : List (List Char) :=
  let ls1 := ls.map normBlankLine
  let m := marginOf ls1
  ls1.map (stripMargin m)

/-- `textwrap.dedent` on a character list. -/
def pyDedentL (cs : List Char) : List Char := joinNl (dedentLines (splitNl cs))

/-- `textwrap.dedent` on a string. -/
def pyDedent (s : String) : String := ⟨pyDedentL s.data⟩

/-! ### `finalize_block`

```
first = 0
for i, line in enumerate(block):
    first = i
    if line.strip():
        break
last = None
for i, line in enumerate(reversed(block)):
    last = -i or None
    if line.strip():
        break
block.append("")
text = dedent("\n".join(block[first:last]))
...
return mode, text, n - len(block)
```
-/

/-- The `first` loop: index of the first non-blank line; if every line is
blank the loop runs to the end and leaves `first = len - 1` (and `0` for an
empty list, where the loop body never runs). -/
def pyFirstIdx (block : List (List Char)) : Nat :=
  match block.findIdx? (fun l => !isBlankL l) with
  | some i => i
  | none => block.length - 1

/-- The `last` loop, encoded as the number of elements cut from the end:
`none` models Python's `last = None` (no cut), `some t` models `last = -t`.
With `t₀` trailing blank lines and a non-blank line present, the loop breaks
at `i = t₀`, giving `-t₀ or None`; with all lines blank it runs to
`i = len - 1`, giving `-(len-1) or None`. -/
def pyCut (block : List (List Char)) : Option Nat :=
  if (block.reverse.takeWhile isBlankL).length = block.length then
    if block.length ≤ 1 then none else some (block.length - 1)
  else
    if (block.reverse.takeWhile isBlankL).length = 0 then none
    else some (block.reverse.takeWhile isBlankL).length

/-- Python's `xs[first:last]` for `last = None` or a negative `last = -t`. -/
def pySlice (xs : List (List Char)) (first : Nat) (cut : Option Nat) :
    List (List Char) :=
  match cut with
  | none => xs.drop first
  | some t => (xs.take (xs.length - t)).drop first

/-- The `mode == "text"` branch of `finalize_block`: content and reported
start line.  Note that `block.append("")` happens before both the slice and
the final `n - len(block)`. -/
def finalizeText (block : List (List Char)) (n : Nat) : String × Int :=
  (⟨pyDedentL (joinNl
      (pySlice (block ++ [[]]) (pyFirstIdx block) (pyCut block)))⟩,
   (n : Int) - ((block ++ [[]]).length : Int))

/-- The `else` (code) branch of `finalize_block`: verbatim join. -/
def finalizeCode (block : List (List Char)) (n : Nat) : String × Int :=
  (⟨joinNl block⟩, (n : Int) - (block.length : Int))

/-! ### `cleanup_multiline`

```
def cleanup_multiline(lines):
    first_line = 1 if start_text == self.continue_text else 0
    longest = max(len(line) for line in lines)
    matched = False
    for i, line in enumerate(lines[first_line:]):
        if m := self.multiline_cleanup.match(line):
            matched = True
            if (n := len(m.group(0))) < len(line):
                longest = min(longest, n)
    if matched and longest:
        for i, line in enumerate(lines[first_line:], start=first_line):
            lines[i] = lines[i][longest:]
    return lines
```

The compiled pattern `self.multiline_cleanup` is abstracted as a function
returning the length of the match of the pattern at the start of the line
(`len(m.group(0))`), or `none` when the pattern does not match.

The final loop assigns `lines[i] = lines[i][longest:]` for every index from
`first_line` on, i.e. it keeps the first `first_line` lines and drops `longest`
characters from each of the rest. -/

def cleanupStep (cl : List Char → Option Nat) (acc : Bool × Nat)
    (line : List Char) : Bool × Nat :=
  match cl line with
  | some k => (true, if k < line.length then min acc.2 k else acc.2)
  | none => acc

def cleanupMultiline (cl : List Char → Option Nat) (firstLine : Nat)
    (lines : List (List Char)) : List (List Char) :=
  let longest0 := (lines.map List.length).foldl max 0
  let res := (lines.drop firstLine).foldl (cleanupStep cl) (false, longest0)
  if res.1 && res.2 ≠ 0 then
    lines.take firstLine ++ (lines.drop firstLine).map (fun l => l.drop res.2)
  else lines

/-! ### The segmentation state machine (`_get_blocks`) -/

/-- The language-dependent compiled patterns held by a `BlockParser` instance,
abstracted as matching functions.  `startSpecial` and `continueText` model
`pattern.search(text)` returning `m.group(1)` (the group `(.*)` always exists
on a match); `multilineEnd` models `self.multiline_end.search(text)` returning
`m.group(1)`; `multilineCleanup` models `self.multiline_cleanup.match(line)`
returning `len(m.group(0))`. -/
structure GalleryParser where
  startSpecial : List Char → Option (List Char)
  continueText : List Char → Option (List Char)
  multilineEnd : List Char → Option (List Char)
  multilineCleanup : List Char → Option Nat

/-- The mutable loop state of `_get_blocks`: the emitted blocks so far, the
current mode (`None`/`"text"`/`"code"`), the accumulated lines of the open
block, and whether `start_text` is still `self.continue_text` (it switches
permanently to `self.start_special` when the first text block is finalized).
`spanStart` and `openedFirst` are ghost data for the open block. -/
structure SegSt where
  blocks : List Block
  mode : Option Mode
  block : List (List Char)
  firstText : Bool
  spanStart : Nat
  openedFirst : Bool
deriving Repr

def initSt : SegSt :=
  { blocks := [], mode := none, block := [], firstText := true,
    spanStart := 0, openedFirst := false }

/-- `if block: yield finalize_block(mode, block)`.  Finalizing a text block
also performs the `nonlocal start_text; start_text = self.start_special`
switch.  `n` is the loop index at the time of the call, `spanEnd` the ghost
end of the block's line span, `r` the ghost closing reason. -/
def emitBlock (st : SegSt) (n spanEnd : Nat) (r : CloseReason) : SegSt :=
  match st.mode, st.block with
  | some m, b@(_ :: _) =>
    let fin := match m with
      | .text => finalizeText b n
      | .code => finalizeCode b n
    { st with
      blocks := st.blocks ++
        [{ mode := m, content := fin.1, startLine := fin.2,
           spanStart := st.spanStart, spanEnd := spanEnd,
           openedFirstText := st.openedFirst, closedBy := r }],
      firstText := st.firstText && !(m = .text : Bool) }
  | _, _ => st

/-- Branches 3–5 of the `_get_blocks` dispatch (reached when neither the
blank-line branch nor the text-start branch fired):

```
elif mode == "text" and token in COMMENT_TYPES:
    if token == pygments.token.Comment.Multiline:
        if m := self.multiline_end.search(text):
            block.append(m.group(1))
            block = cleanup_multiline(block)
        else:
            block.append(text)
    else:
        block.append(self.continue_text.search(text).group(1))
elif mode != "code":
    if block:
        yield finalize_block(mode, block)
    mode, block = "code", [text]
else:
    block.append(text)
```

In the single-line-comment continuation the source calls `.group(1)` on the
result of `search` without a `None` check; when the pattern does not match,
Python raises `AttributeError`.  The total model appends the empty line in
that (practically unreachable) case. -/
def segLower (p : GalleryParser) (n : Nat) (t : Tok) (x : List Char)
    (st : SegSt) : SegSt :=
  if st.mode = some .text && t.isComment then
    if t = .multi then
      match p.multilineEnd x with
      | some g =>
        { st with block := (cleanupMultiline p.multilineCleanup
            (if st.firstText then 1 else 0) (st.block ++ [g])) }
      | none => { st with block := st.block ++ [x] }
    else
      { st with block := st.block ++ [(p.continueText x).getD []] }
  else if st.mode ≠ some .code then
    let st1 := emitBlock st n n .codeLine
    { st1 with mode := some .code, block := [x], spanStart := n,
               openedFirst := false }
  else
    { st with block := st.block ++ [x] }

/-- One iteration of the `for n, (token, text) in enumerate(...)` loop:
branches 1 and 2 of the dispatch, falling through to `segLower`.

```
if mode == "text" and token in pygments.token.Whitespace:
    if block:
        yield finalize_block(mode, block)
    mode, block = None, []
elif (mode != "text" and token in COMMENT_TYPES
        and (m := start_text.search(text))):
    if block:
        yield finalize_block(mode, block)
    mode, block = "text", []
    if (trailing_text := m.group(1)) is not None:
        if start_text == self.continue_text:
            block.append(trailing_text)
        elif trailing_text.strip():
            logger.warning(...)   # dropped
```

`start_text` is `continue_text` while `firstText` holds and `start_special`
afterwards; `m.group(1)` is never `None` since group 1 is `(.*)`. -/
def segStep (p : GalleryParser) (n : Nat) (t : Tok) (x : List Char)
    (st : SegSt) : SegSt :=
  if st.mode = some .text && t.isWs then
    let st1 := emitBlock st n n .blankLine
    { st1 with mode := none, block := [] }
  else if st.mode ≠ some .text && t.isComment then
    match (if st.firstText then p.continueText x else p.startSpecial x) with
    | some g =>
      let st1 := emitBlock st n n .markerLine
      { st1 with mode := some .text,
                 block := if st.firstText then [g] else [],
                 spanStart := n, openedFirst := st.firstText }
    | none => segLower p n t x st
  else segLower p n t x st

/-- The whole loop, threading the line index. -/
def segRun (p : GalleryParser) : Nat → List (Tok × List Char) → SegSt → SegSt
  | _, [], st => st
  | n, (t, x) :: rest, st => segRun p (n + 1) rest (segStep p n t x st)

/-- `_get_blocks` as a list: run the loop, then `if block:
yield finalize_block(mode, block)` with `n` still bound to the last loop
index. -/
def getBlocks (p : GalleryParser) (lines : List (Tok × List Char)) :
    List Block :=
  (emitBlock (segRun p 0 lines initSt) (lines.length - 1) lines.length
    .endOfInput).blocks

/-! ### Concrete matchers for the `#` language

For a Python-like lexer the comment-syntax probe accepts the samples
`"# comment"` and `"#= comment =#"` (both are classified `Comment.Single` —
a `#=`-line is an ordinary `#` comment in Python), so
`comment_start = "(?:#|#=)"`, `self.continue_text = (?:#|#=) ?(.*)` and
`self.start_special = (?:#|#=) ?%% ?(.*)`.  No accepted convention has an end
marker, so `self.multiline_end = re.compile(chr(0))` (it can only match a NUL
character, which the inputs never contain) and `self.multiline_cleanup =
re.compile(r"\s*")`.

`(.*)` stops at a newline, so a captured group is read with
`takeWhile (· ≠ '\n')`. -/

/-- `search` for `(?:#|#=) ?(.*)`.  At a given position the alternative `#`
is tried first and, since the tail ` ?(.*)` never fails, always yields the
match whenever `#=` would; the `#=` branch is therefore unreachable.  The
optional `" "` is consumed greedily. -/
def continueTextHash : List Char → Option (List Char)
  | [] => none
  | c :: rest =>
    if c = '#' then
      some ((match rest with
             | ' ' :: r => r
             | r => r).takeWhile (· ≠ '\n'))
    else continueTextHash rest

/-- Match `(?:#|#=) ?%% ?(.*)` at the head of `cs`: the regex engine tries, in
backtracking order, the prefixes `"# %%"`, `"#%%"`, `"#= %%"`, `"#=%%"`. -/
def startSpecAt (cs : List Char) : Option (List Char) :=
  let tryPre := fun (pre : List Char) =>
    if pre.isPrefixOf cs then
      some ((match cs.drop pre.length with
             | ' ' :: r => r
             | r => r).takeWhile (· ≠ '\n'))
    else none
  (tryPre ['#', ' ', '%', '%']).orElse fun _ =>
  (tryPre ['#', '%', '%']).orElse fun _ =>
  (tryPre ['#', '=', ' ', '%', '%']).orElse fun _ =>
  tryPre ['#', '=', '%', '%']

/-- `search` for `(?:#|#=) ?%% ?(.*)`: leftmost position wins. -/
def startSpecialHash : List Char → Option (List Char)
  | [] => none
  | cs@(_ :: rest) =>
    match startSpecAt cs with
    | some g => some g
    | none => startSpecialHash rest

/-- The `BlockParser` pattern set for the `#` language. -/
def hashParser : GalleryParser :=
  { startSpecial := startSpecialHash
    continueText := continueTextHash
    multilineEnd := fun _ => none
    multilineCleanup := fun cs => some (cs.takeWhile pyIsSpace).length }

/-! ### The comment-syntax detector (`BlockParser.__init__`, lines 46–69)

```
comment_tests = [
    ("# comment", "#", None),
    ("// comment", "//", None),
    ("/* comment */", r"/\*", r"\*/"),
    ("% comment", "%", None),
    ("! comment", "!", None),
    ("#= comment =#", "#=", "=#"),  # Julia multiline
    ("c     comment", r"^c(?:$|     )", None),
]
self.allowed_comments = []
self.multiline_end = re.compile(chr(0))  # unmatchable regex
for test, start, end in comment_tests:
    if next(self.lexer.get_tokens(test))[0] in COMMENT_TYPES:
        self.allowed_comments.append(start)
        if end:
            self.multiline_end = re.compile(rf"(.*?)\s*{end}")
if r"/\*" in self.allowed_comments:
    self.multiline_cleanup = re.compile(r"\s*\*\s*")
else:
    self.multiline_cleanup = re.compile(r"\s*")
```

The lexer is an external capability; the outcome of probing it with the seven
sample snippets is abstracted as a `Probe` of seven booleans ("the first token
of the sample is classified as a comment kind"). -/

/-- The candidate comment-start conventions, in table order. -/
inductive CStart where
  | hash        -- "#"
  | slashSlash  -- "//"
  | slashStar   -- "/*" ... "*/"
  | percent     -- "%"
  | bang        -- "!"
  | hashEq      -- "#=" ... "=#" (Julia multiline)
  | fortranC    -- column-anchored "c"
deriving DecidableEq, Repr

/-- The two possible end-marker patterns. -/
inductive MlEnd where
  | starSlash  -- `(.*?)\s*\*/`
  | eqHash     -- `(.*?)\s*=#`
deriving DecidableEq, Repr

/-- Outcome of probing the external lexer with the seven samples. -/
structure Probe where
  hash : Bool
  slashSlash : Bool
  slashStar : Bool
  percent : Bool
  bang : Bool
  hashEq : Bool
  fortranC : Bool
deriving DecidableEq, Repr

def Probe.accepts (p : Probe) : CStart → Bool
  | .hash => p.hash
  | .slashSlash => p.slashSlash
  | .slashStar => p.slashStar
  | .percent => p.percent
  | .bang => p.bang
  | .hashEq => p.hashEq
  | .fortranC => p.fortranC

/-- The `comment_tests` table: start marker and optional end marker. -/
def commentTests : List (CStart × Option MlEnd) :=
  [(.hash, none), (.slashSlash, none), (.slashStar, some .starSlash),
   (.percent, none), (.bang, none), (.hashEq, some .eqHash),
   (.fortranC, none)]

/-- The detection loop: accepted start markers in order, and the last end
marker written to `self.multiline_end` (`none` models the unmatchable
`re.compile(chr(0))`). -/
def detectComments (p : Probe) : List CStart × Option MlEnd :=
  commentTests.foldl
    (fun acc t =>
      if p.accepts t.1 then
        (acc.1 ++ [t.1],
         match t.2 with
         | some e => some e
         | none => acc.2)
      else acc)
    ([], none)

/-- The two possible `self.multiline_cleanup` patterns. -/
inductive CleanupKind where
  | absorbStar  -- `\s*\*\s*`: whitespace, a decorative `*`, whitespace
  | wsOnly      -- `\s*`: leading whitespace only
deriving DecidableEq, Repr

/-- `if r"/\*" in self.allowed_comments: ... else: ...`. -/
def detectCleanup (p : Probe) : CleanupKind :=
  if (detectComments p).1.contains .slashStar then .absorbStar else .wsOnly

/-- The probe outcome for Julia: `#` line comments and `#= ... =#` block
comments are classified as comments; `//`, `/* */`, `%`, `!` and the
column-anchored `c` marker are not. -/
def juliaProbe : Probe :=
  { hash := true, slashSlash := false, slashStar := false, percent := false,
    bang := false, hashEq := true, fortranC := false }

/-! ### Cleanup patterns and the claim-C7 comparison model -/

/-- `self.multiline_cleanup.match(line)` for the C-style pattern
`\s*\*\s*`, returning `len(m.group(0))`: maximal whitespace, a literal `*`,
maximal whitespace (the pattern is deterministic since `*` is not a
whitespace character). -/
def cStyleCleanup (cs : List Char) : Option Nat :=
  let w1 := cs.takeWhile pyIsSpace
  match cs.drop w1.length with
  | '*' :: rest => some (w1.length + 1 + (rest.takeWhile pyIsSpace).length)
  | _ => none

/-- Modelled from the words of claim C7 / spec §4.3: candidate lines start
"from index 1 if the text block was opened by a marker, and from index 0 if
it was the unmarked first block of the file; among candidate lines matched by
the cleanup pattern it takes the minimum matched-prefix length and strips
exactly that many leading characters from every candidate line, and if no
candidate line matches it leaves all lines unmodified." -/
def cleanupClaimedC7 (cl : List Char → Option Nat) (openedByMarker : Bool)
    (lines : List (List Char)) : List (List Char) :=
  let firstLine := if openedByMarker then 1 else 0
  let candidates := lines.drop firstLine
  match candidates.filterMap cl with
  | [] => lines
  | k :: ks =>
    let amount := ks.foldl min k
    lines.take firstLine ++ candidates.map (fun l => l.drop amount)

/-- The behaviour of `cleanup_multiline`, stated in the amended claim's
words: candidate lines start from index 1 when the block is the unmarked
first block of the file (`start_text == self.continue_text`, so the opener
line already carries its kept trailing text) and from index 0 when the block
was opened by a `%%` marker; the strip amount is the minimum of the maximal
line length of the whole block and the match lengths of those candidate
lines on which the cleanup pattern matches a proper prefix (a line matched
in its entirety does not lower the amount); if at least one candidate line
matches at all and the amount is non-zero, that many leading characters are
dropped from every candidate line; otherwise all lines are unmodified. -/
def cleanupAmendedC7 (cl : List Char → Option Nat) (unmarkedFirst : Bool)
    (lines : List (List Char)) : List (List Char) :=
  let firstLine := if unmarkedFirst then 1 else 0
  let candidates := lines.drop firstLine
  let maxLen := (lines.map List.length).foldl max 0
  let propers := candidates.filterMap (fun l =>
    match cl l with
    | some k => if k < l.length then some k else none
    | none => none)
  let amount := propers.foldl min maxLen
  if candidates.any (fun l => (cl l).isSome) && amount ≠ 0 then
    lines.take firstLine ++ candidates.map (fun l => l.drop amount)
  else lines

/-! ### Line spans of emitted blocks -/

/-- The spans of the listed blocks are ordered and pairwise disjoint: each
starts no earlier than `lo` and no earlier than the previous block's end, and
the last one ends no later than `hi`. -/
def spansChain (lo : Nat) : List Block → Nat → Prop
  | [], hi => lo ≤ hi
  | b :: bs, hi => lo ≤ b.spanStart ∧ b.spanStart ≤ b.spanEnd ∧
      spansChain b.spanEnd bs hi

/-- How many of the listed blocks' line spans contain line `i`. -/
def coveredCount (bs : List Block) (i : Nat) : Nat :=
  (bs.filter (fun b => decide (b.spanStart ≤ i ∧ i < b.spanEnd))).length

theorem spansChain_mono {lo hi hi2 : Nat} {bs : List Block}
    (h : spansChain lo bs hi) (hle : hi ≤ hi2) : spansChain lo bs hi2 := by
  induction bs generalizing lo with
  | nil => exact Nat.le_trans h hle
  | cons b bs ih => exact ⟨h.1, h.2.1, ih h.2.2⟩

theorem spansChain_append_one {lo m hi : Nat} {bs : List Block} {b : Block}
    (h : spansChain lo bs m) (h1 : m ≤ b.spanStart)
    (h2 : b.spanStart ≤ b.spanEnd) (h3 : b.spanEnd ≤ hi) :
    spansChain lo (bs ++ [b]) hi := by
  induction bs generalizing lo with
  | nil =>
    exact ⟨Nat.le_trans h h1, h2, h3⟩
  | cons c cs ih => exact ⟨h.1, h.2.1, ih h.2.2⟩

theorem spansChain_coveredCount {lo hi : Nat} {bs : List Block}
    (h : spansChain lo bs hi) (i : Nat) :
    coveredCount bs i ≤ 1 ∧ (i < lo → coveredCount bs i = 0) := by
  induction bs generalizing lo with
  | nil => exact ⟨Nat.zero_le 1, fun _ => rfl⟩
  | cons b bs ih =>
    obtain ⟨h1, h2, h3⟩ := h
    obtain ⟨ihA, ihB⟩ := ih h3
    by_cases hin : b.spanStart ≤ i ∧ i < b.spanEnd
    · have hz : coveredCount bs i = 0 := ihB hin.2
      have : coveredCount (b :: bs) i = 1 + coveredCount bs i := by
        simp [coveredCount, List.filter, hin]
        omega
      constructor
      · omega
      · intro hlt; omega
    · have : coveredCount (b :: bs) i = coveredCount bs i := by
        simp [coveredCount, List.filter, hin]
      constructor
      · omega
      · intro hlt
        have : i < b.spanEnd := by omega
        have := ihB this
        omega

/-! ### The loop invariant of `_get_blocks` -/

/-- Properties of every block emitted from inside the loop: it was not closed
by end of input; its reported start line is its span start minus one exactly
when it is the unmarked first text block; and a code block can only have been
closed by a marker line (the only branch that finalizes a code block before
the end of input) and is never the unmarked first text block. -/
def BlockOKmid (b : Block) : Prop :=
  b.closedBy ≠ .endOfInput ∧
  b.startLine = (b.spanStart : Int) - (if b.openedFirstText then 1 else 0) ∧
  (b.mode = .code → b.closedBy = .markerLine ∧ b.openedFirstText = false)

/-- The loop invariant, holding before the iteration that processes line
index `n`: the emitted spans are chained below the open block (or below `n`
when no block is open), every emitted block satisfies `BlockOKmid`, and the
accumulated line count of the open block ties `spanStart` to `n`. -/
def StInv (st : SegSt) (n : Nat) : Prop :=
  spansChain 0 st.blocks
    (match st.mode with | some _ => st.spanStart | none => n) ∧
  (∀ b ∈ st.blocks, BlockOKmid b) ∧
  (match st.mode with
   | none => st.block = []
   | some .code =>
       st.block ≠ [] ∧ st.spanStart + st.block.length = n ∧
       st.openedFirst = false
   | some .text =>
       st.spanStart + st.block.length +
         (if st.openedFirst then 0 else 1) = n)

theorem emitBlock_fields (st : SegSt) (n sE : Nat) (r : CloseReason) :
    (emitBlock st n sE r).mode = st.mode ∧
    (emitBlock st n sE r).block = st.block ∧
    (emitBlock st n sE r).spanStart = st.spanStart ∧
    (emitBlock st n sE r).openedFirst = st.openedFirst := by
  rcases hm : st.mode with _ | m <;> rcases hb : st.block with _ | ⟨l, ls⟩ <;>
    simp [emitBlock, hm, hb]

theorem emitBlock_empty {st : SegSt} (n sE : Nat) (r : CloseReason)
    (hb : st.block = []) : emitBlock st n sE r = st := by
  rcases hm : st.mode with _ | m <;> simp [emitBlock, hm, hb]

theorem emitBlock_modeNone {st : SegSt} (n sE : Nat) (r : CloseReason)
    (hm : st.mode = none) : emitBlock st n sE r = st := by
  rcases hb : st.block with _ | ⟨l, ls⟩ <;> simp [emitBlock, hm, hb]

/-- Emitting an open text block at loop index `n` with span end `n`:
the resulting block list is chained up to `n` and each block satisfies
`BlockOKmid`; the open-block fields are untouched. -/
theorem emit_text_ok {st : SegSt} {n : Nat} (h : StInv st n)
    (hm : st.mode = some .text) (r : CloseReason) (hr : r ≠ .endOfInput) :
    spansChain 0 (emitBlock st n n r).blocks n ∧
    (∀ b ∈ (emitBlock st n n r).blocks, BlockOKmid b) := by
  obtain ⟨hchain, hblocks, hopen⟩ := h
  simp only [hm] at hchain hopen
  rcases hb : st.block with _ | ⟨l, ls⟩
  · rw [emitBlock_empty n n r hb]
    refine ⟨spansChain_mono hchain ?_, hblocks⟩
    rw [hb] at hopen
    simp only [List.length_nil] at hopen
    omega
  · have hSS : st.spanStart + st.block.length +
        (if st.openedFirst then 0 else 1) = n := hopen
    unfold emitBlock
    rw [hm, hb]
    simp only
    constructor
    · apply spansChain_append_one hchain (Nat.le_refl _)
      · simp only
        rw [hb] at hSS
        simp only [List.length_cons] at hSS
        omega
      · exact Nat.le_refl n
    · intro b hbmem
      rcases List.mem_append.mp hbmem with hold | hnew
      · exact hblocks b hold
      · rw [List.mem_singleton] at hnew
        subst hnew
        refine ⟨hr, ?_, ?_⟩
        · simp only [finalizeText]
          rw [hb] at hSS
          simp only [List.length_cons] at hSS
          simp only [List.length_append, List.length_cons, List.length_nil]
          by_cases hof : st.openedFirst
          · simp only [hof, if_pos, if_true] at hSS ⊢
            push_cast
            omega
          · simp only [hof, if_false, Bool.false_eq_true] at hSS ⊢
            push_cast
            omega
        · simp

/-- Emitting an open code block at loop index `n` with span end `n` and
closing reason `markerLine` (the only mid-loop closing reason for code). -/
theorem emit_code_ok {st : SegSt} {n : Nat} (h : StInv st n)
    (hm : st.mode = some .code) :
    spansChain 0 (emitBlock st n n .markerLine).blocks n ∧
    (∀ b ∈ (emitBlock st n n .markerLine).blocks, BlockOKmid b) := by
  obtain ⟨hchain, hblocks, hopen⟩ := h
  simp only [hm] at hchain hopen
  obtain ⟨hne, hSS, hof⟩ := hopen
  rcases hb : st.block with _ | ⟨l, ls⟩
  · exact absurd hb hne
  · unfold emitBlock
    rw [hm, hb]
    simp only
    constructor
    · apply spansChain_append_one hchain (Nat.le_refl _)
      · simp only
        rw [hb] at hSS
        simp only [List.length_cons] at hSS
        omega
      · exact Nat.le_refl n
    · intro b hbmem
      rcases List.mem_append.mp hbmem with hold | hnew
      · exact hblocks b hold
      · rw [List.mem_singleton] at hnew
        subst hnew
        refine ⟨by simp, ?_, ?_⟩
        · simp only [finalizeCode, hof, if_false, Bool.false_eq_true]
          rw [hb] at hSS
          omega
        · intro _
          exact ⟨rfl, hof⟩

theorem cleanupMultiline_length (cl : List Char → Option Nat) (fl : Nat)
    (ls : List (List Char)) :
    (cleanupMultiline cl fl ls).length = ls.length := by
  unfold cleanupMultiline
  simp only []
  split
  · simp only [List.length_append, List.length_take, List.length_map,
      List.length_drop]
    omega
  · rfl


/-! ### Invariant preservation -/


/-- A text-mode state whose accumulated block grew by one line. -/
theorem text_step_inv {bs : List Block} {bl B : List (List Char)} {n ss : Nat}
    {ft of : Bool} (hB : B.length = bl.length + 1)
    (hchain : spansChain 0 bs ss) (hblocks : ∀ b ∈ bs, BlockOKmid b)
    (hopen : ss + bl.length + (if of then 0 else 1) = n) :
    StInv ⟨bs, some Mode.text, B, ft, ss, of⟩ (n + 1) := by
  refine ⟨hchain, hblocks, ?_⟩
  show ss + B.length + (if of then 0 else 1) = n + 1
  rw [hB]
  omega

theorem stInv_segLower (p : GalleryParser) (n : Nat) (t : Tok) (x : List Char)
    (st : SegSt) (h : StInv st n) : StInv (segLower p n t x st) (n + 1) := by
  obtain ⟨bs, mo, bl, ft, ss, of⟩ := st
  obtain ⟨hchain, hblocks, hopen⟩ := h
  simp only at hchain hblocks hopen
  rcases mo with _ | m
  · -- mode is None: body opens a code block with this line
    simp only at hchain hopen
    unfold segLower
    rw [if_neg (by simp)]
    rw [if_pos (by simp)]
    rw [emitBlock_modeNone n n .codeLine rfl]
    refine ⟨?_, hblocks, ?_⟩
    · exact hchain
    · show [x] ≠ [] ∧ n + 1 = n + 1 ∧ false = false
      exact ⟨by simp, rfl, rfl⟩
  · rcases m with _ | _
    · -- mode is "text"
      simp only at hchain hopen
      by_cases htc : t.isComment = true
      · -- a comment continuation line: exactly one line is appended
        unfold segLower
        rw [if_pos (by simp [htc])]
        by_cases hmu : t = Tok.multi
        · rw [if_pos hmu]
          rcases hml : p.multilineEnd x with _ | g
          · exact text_step_inv (by simp) hchain hblocks hopen
          · refine text_step_inv ?_ hchain hblocks hopen
            rw [cleanupMultiline_length]
            simp
        · rw [if_neg hmu]
          exact text_step_inv (by simp) hchain hblocks hopen
      · -- not a comment: the open text block is emitted, a code block opens
        unfold segLower
        rw [if_neg (by simp [htc])]
        rw [if_pos (by simp)]
        have hET := @emit_text_ok ⟨bs, some Mode.text, bl, ft, ss, of⟩ n
          ⟨by simpa using hchain, hblocks, by simpa using hopen⟩ rfl
          .codeLine (by simp)
        refine ⟨hET.1, hET.2, ?_⟩
        show [x] ≠ [] ∧ n + 1 = n + 1 ∧ false = false
        exact ⟨by simp, rfl, rfl⟩
    · -- mode is "code": the line is appended to the open code block
      simp only at hchain hopen
      obtain ⟨hne, hSS, hof⟩ := hopen
      unfold segLower
      rw [if_neg (by simp)]
      rw [if_neg (by simp)]
      refine ⟨hchain, hblocks, ?_⟩
      show bl ++ [x] ≠ [] ∧ ss + (bl ++ [x]).length = n + 1 ∧ of = false
      refine ⟨by simp, ?_, hof⟩
      simp only [List.length_append, List.length_cons, List.length_nil]
      omega



theorem stInv_step (p : GalleryParser) (n : Nat) (t : Tok) (x : List Char)
    (st : SegSt) (h : StInv st n) : StInv (segStep p n t x st) (n + 1) := by
  obtain ⟨bs, mo, bl, ft, ss, of⟩ := st
  by_cases h1 : mo = some Mode.text ∧ t.isWs = true
  · -- first branch: a blank line closes the open text block
    obtain ⟨hmo, htw⟩ := h1
    subst hmo
    unfold segStep
    rw [if_pos (by simp [htw])]
    have hET := @emit_text_ok ⟨bs, some Mode.text, bl, ft, ss, of⟩ n h
      rfl .blankLine (by simp)
    refine ⟨spansChain_mono hET.1 (Nat.le_succ n), hET.2, rfl⟩
  · unfold segStep
    rw [if_neg ?hneg]
    case hneg =>
      rcases Decidable.em (mo = some Mode.text) with hm | hm
      · have : ¬ t.isWs = true := fun hw => h1 ⟨hm, hw⟩
        simp [hm, this]
      · simp [hm]
    obtain ⟨hchain, hblocks, hopen⟩ := h
    simp only at hchain hblocks hopen
    by_cases h2 : ¬ mo = some Mode.text ∧ t.isComment = true
    · obtain ⟨hmo, htc⟩ := h2
      rw [if_pos (by simp [hmo, htc])]
      rcases hsel : (if ft = true then p.continueText x else p.startSpecial x)
        with _ | g
      · -- the active start pattern does not match: fall through
        exact stInv_segLower p n t x ⟨bs, mo, bl, ft, ss, of⟩
          ⟨by simpa using hchain, hblocks, by simpa using hopen⟩
      · -- a new text block opens at line n
        rcases mo with _ | m
        · simp only at hchain hopen
          rw [emitBlock_modeNone n n .markerLine rfl]
          refine ⟨hchain, hblocks, ?_⟩
          show n + (if ft = true then [g] else []).length +
            (if ft then 0 else 1) = n + 1
          by_cases hft : ft = true <;> simp [hft]
        · rcases m with _ | _
          · exact absurd rfl hmo
          · have hEC := @emit_code_ok ⟨bs, some Mode.code, bl, ft, ss, of⟩ n
              ⟨by simpa using hchain, hblocks, by simpa using hopen⟩ rfl
            refine ⟨hEC.1, hEC.2, ?_⟩
            show n + (if ft = true then [g] else []).length +
              (if ft then 0 else 1) = n + 1
            by_cases hft : ft = true <;> simp [hft]
    · have hneg2 : (decide (¬ mo = some Mode.text) && t.isComment) = false := by
        rcases Decidable.em (mo = some Mode.text) with hm | hm
        · simp [hm]
        · have : ¬ t.isComment = true := fun hc => h2 ⟨hm, hc⟩
          simp [hm, this]
      simp only [hneg2, Bool.false_eq_true, if_false]
      exact stInv_segLower p n t x ⟨bs, mo, bl, ft, ss, of⟩
        ⟨by simpa using hchain, hblocks, by simpa using hopen⟩



theorem stInv_segRun (p : GalleryParser) :
    ∀ (lines : List (Tok × List Char)) (n : Nat) (st : SegSt),
      StInv st n → StInv (segRun p n lines st) (n + lines.length)
  | [], n, st, h => by simpa [segRun] using h
  | (t, x) :: rest, n, st, h => by
    have ih := stInv_segRun p rest (n + 1) _ (stInv_step p n t x st h)
    simp only [segRun]
    have : n + 1 + rest.length = n + (rest.length + 1) := by omega
    rw [this] at ih
    simpa using ih

theorem stInv_init : StInv initSt 0 :=
  ⟨Nat.le_refl 0, fun b hb => absurd hb (List.not_mem_nil b), rfl⟩

/-- Every block of `getBlocks`: reported start line versus span start, and
closing reasons of code blocks. -/
def BlockOKfinal (b : Block) : Prop :=
  b.startLine = (b.spanStart : Int) - (if b.openedFirstText then 1 else 0)
      - (if b.closedBy = CloseReason.endOfInput then 1 else 0) ∧
  (b.mode = .code → b.closedBy = .markerLine ∨ b.closedBy = .endOfInput)

theorem blockOKmid_final {b : Block} (h : BlockOKmid b) : BlockOKfinal b := by
  obtain ⟨h1, h2, h3⟩ := h
  refine ⟨?_, fun hc => Or.inl (h3 hc).1⟩
  rw [if_neg h1]
  omega

theorem getBlocks_ok (p : GalleryParser) (lines : List (Tok × List Char)) :
    spansChain 0 (getBlocks p lines) lines.length ∧
    (∀ b ∈ getBlocks p lines, BlockOKfinal b) ∧
    (∀ b ∈ getBlocks p lines, b.closedBy = .endOfInput →
      (getBlocks p lines).getLast? = some b) := by
  have hfin := stInv_segRun p lines 0 initSt stInv_init
  rw [Nat.zero_add] at hfin
  set st := segRun p 0 lines initSt with hst
  obtain ⟨bs, mo, bl, ft, ss, of⟩ := st
  obtain ⟨hchain, hblocks, hopen⟩ := hfin
  simp only at hchain hblocks hopen
  unfold getBlocks
  rw [← hst]
  rcases mo with _ | m
  · -- no open block: nothing is flushed
    simp only at hchain hopen
    rw [emitBlock_modeNone _ _ _ rfl]
    refine ⟨hchain, ?_, ?_⟩
    · intro b hb
      exact blockOKmid_final (hblocks b hb)
    · intro b hb hbe
      exact absurd hbe (hblocks b hb).1
  · rcases hb : bl with _ | ⟨l, ls⟩
    · -- open block is empty: nothing is flushed
      rw [emitBlock_empty _ _ _ rfl]
      have hssL : ss ≤ lines.length := by
        rcases m with _ | _
        · simp only at hopen
          by_cases hof : of = true <;> simp [hof, hb] at hopen <;> omega
        · simp only at hopen
          exact absurd hb hopen.1
      refine ⟨spansChain_mono hchain hssL, ?_, ?_⟩
      · intro b hbm
        exact blockOKmid_final (hblocks b hbm)
      · intro b hbm hbe
        exact absurd hbe (hblocks b hbm).1
    · -- the open block is flushed with n = lines.length - 1
      subst hb
      rcases m with _ | _
      · -- text block
        simp only at hopen
        have hL1 : 1 ≤ lines.length := by
          simp only [List.length_cons] at hopen
          omega
        unfold emitBlock
        simp only
        constructor
        · apply spansChain_append_one hchain (Nat.le_refl _)
          · simp only
            simp only [List.length_cons] at hopen
            omega
          · exact Nat.le_refl _
        constructor
        · intro b hbm
          rcases List.mem_append.mp hbm with hold | hnew
          · exact blockOKmid_final (hblocks b hold)
          · rw [List.mem_singleton] at hnew
            subst hnew
            refine ⟨?_, by simp⟩
            simp only [finalizeText, List.length_append, List.length_cons,
              List.length_nil, if_pos rfl]
            simp only [List.length_cons] at hopen
            by_cases hof : of = true <;> simp only [hof, if_true, if_false,
              Bool.false_eq_true] at hopen ⊢ <;> omega
        · intro b hbm hbe
          rcases List.mem_append.mp hbm with hold | hnew
          · exact absurd hbe (hblocks b hold).1
          · rw [List.mem_singleton] at hnew
            subst hnew
            exact List.getLast?_concat _
      · -- code block
        simp only at hopen
        obtain ⟨hne, hSS, hof⟩ := hopen
        simp only [List.length_cons] at hSS
        have hL1 : 1 ≤ lines.length := by omega
        unfold emitBlock
        simp only
        constructor
        · apply spansChain_append_one hchain (Nat.le_refl _)
          · simp only
            omega
          · exact Nat.le_refl _
        constructor
        · intro b hbm
          rcases List.mem_append.mp hbm with hold | hnew
          · exact blockOKmid_final (hblocks b hold)
          · rw [List.mem_singleton] at hnew
            subst hnew
            refine ⟨?_, fun _ => Or.inr rfl⟩
            simp only [finalizeCode, List.length_cons, hof]
            simp only [if_false, Bool.false_eq_true, if_pos]
            norm_num
            omega
        · intro b hbm hbe
          rcases List.mem_append.mp hbm with hold | hnew
          · exact absurd hbe (hblocks b hold).1
          · rw [List.mem_singleton] at hnew
            subst hnew
            exact List.getLast?_concat _


/-! ### Concrete inputs

Line streams as produced by `_get_content_lines` for concrete `#`-commented
files (comment lines are classified `Comment.Single`, blank lines
`Whitespace`, code lines by some non-comment token type). -/

/-- The spec's §8 concrete scenario:
`"# Title\n# =====\n#\n# description\n\na = 1\n\n# %% Single-line comment\n\nb = 2"`. -/
def specScenarioLines : List (Tok × List Char) :=
  [(.single, "# Title".data), (.single, "# =====".data), (.single, "#".data),
   (.single, "# description".data), (.ws, "".data), (.other, "a = 1".data),
   (.ws, "".data), (.single, "# %% Single-line comment".data), (.ws, "".data),
   (.other, "b = 2".data)]

/-- `"# A\n\n# %%\n# B\n\nx = 1"`: a `%%` marker directly follows the blank
line that closed the first text block, so two text blocks are emitted in a
row. -/
def twoTextLines : List (Tok × List Char) :=
  [(.single, "# A".data), (.ws, "".data), (.single, "# %%".data),
   (.single, "# B".data), (.ws, "".data), (.other, "x = 1".data)]

/-- `"# A\n\nx = 1\n\n# %%\n# b"`: a first text block, a code block closed by
a marker, and a marker text block flushed at end of input. -/
def mixedStartLines : List (Tok × List Char) :=
  [(.single, "# A".data), (.ws, "".data), (.other, "x = 1".data),
   (.ws, "".data), (.single, "# %%".data), (.single, "# b".data)]

/-- `"# \n#\n\nx = 1"`: the leading text block accumulates only blank
lines. -/
def allBlankTextLines : List (Tok × List Char) :=
  [(.single, "# ".data), (.single, "#".data), (.ws, "".data),
   (.other, "x = 1".data)]

/-- Modes of adjacent list entries always differ. -/
def modesAlternate : List Mode → Bool
  | a :: b :: rest => (a != b) && modesAlternate (b :: rest)
  | _ => true

/-! ### Claims C1–C4 and C9 -/

/-- Claim C1, counterexample: on the spec's own §8 scenario the emitted
blocks' line spans do **not** cover every input line: the blank line at index
4, which closes the title text block, belongs to no block (and neither do
lines 7–8, consumed by the `%%` marker text block that is discarded as
empty). -/
theorem c1_counterexample :
    ¬ (∀ i < specScenarioLines.length,
        coveredCount (getBlocks hashParser specScenarioLines) i = 1) := by
  decide

/-- Claim C1, amended: for every input, the line spans of the emitted blocks,
in emission order, are ordered and pairwise disjoint and lie inside the
input, so every input line is covered at most once; full coverage can fail
(a blank line closing a text block, and the lines of a discarded empty text
block, belong to no span). -/
theorem c1_amended (p : GalleryParser) (lines : List (Tok × List Char)) :
    spansChain 0 (getBlocks p lines) lines.length ∧
    ∀ i : Nat, coveredCount (getBlocks p lines) i ≤ 1 :=
  ⟨(getBlocks_ok p lines).1,
   fun i => (spansChain_coveredCount (getBlocks_ok p lines).1 i).1⟩

/-- Claim C2, counterexample: on `"# A\n\n# %%\n# B\n\nx = 1"` the machine
emits text, text, code — two consecutive text blocks, because the `%%`
marker line directly follows the blank line that closed the first text
block. -/
theorem c2_counterexample :
    ((getBlocks hashParser twoTextLines).map Block.mode =
      [.text, .text, .code]) ∧
    modesAlternate ((getBlocks hashParser twoTextLines).map Block.mode)
      = false := by
  decide

/-- Claim C2, amended: adjacent emitted blocks may share a mode (both
text–text and code–code sequences occur).  What holds for every input is
that an emitted code block is closed either by a marker line (which opens a
text block, possibly later discarded as empty) or by the end of the input,
and a block closed by end of input is the last emitted block. -/
theorem c2_amended (p : GalleryParser) (lines : List (Tok × List Char))
    (b : Block) (hb : b ∈ getBlocks p lines) :
    (b.mode = .code → b.closedBy = .markerLine ∨ b.closedBy = .endOfInput) ∧
    (b.closedBy = .endOfInput → (getBlocks p lines).getLast? = some b) :=
  ⟨((getBlocks_ok p lines).2.1 b hb).2,
   fun he => (getBlocks_ok p lines).2.2 b hb he⟩

/-- Witness for `c2_amended` at a concrete input. -/
theorem c2_amended_witness :
    (Block.mk .code "x = 1" 4 5 6 false .endOfInput ∈
        getBlocks hashParser twoTextLines) ∧
    ((Block.mk .code "x = 1" 4 5 6 false .endOfInput).mode = .code →
      (Block.mk .code "x = 1" 4 5 6 false .endOfInput).closedBy =
          .markerLine ∨
      (Block.mk .code "x = 1" 4 5 6 false .endOfInput).closedBy =
          .endOfInput) ∧
    ((Block.mk .code "x = 1" 4 5 6 false .endOfInput).closedBy =
        .endOfInput →
      (getBlocks hashParser twoTextLines).getLast? =
        some (Block.mk .code "x = 1" 4 5 6 false .endOfInput)) :=
  ⟨by decide, (c2_amended hashParser twoTextLines _ (by decide)).1,
   (c2_amended hashParser twoTextLines _ (by decide)).2⟩

/-- Claim C3, counterexample: the spec's §8 scenario does **not** yield the
four claimed blocks.  The `%%` marker's trailing text `"Single-line
comment"` is warned about and dropped (`_get_blocks` lines 219–227), the
resulting empty text block is never emitted, and the blank line before the
marker is part of the second block's verbatim content (`"a = 1\n"`, not
`"a = 1"`). -/
theorem c3_counterexample :
    (getBlocks hashParser specScenarioLines).map
        (fun b => (b.mode, b.content)) ≠
      [(.text, "Title\n=====\n\ndescription\n"), (.code, "a = 1"),
       (.text, "Single-line comment\n"), (.code, "b = 2")] := by
  decide

/-- Claim C3, amended: the spec's §8 scenario yields exactly three blocks
`text("Title\n=====\n\ndescription\n")`, `code("a = 1\n")`, `code("b = 2")`:
the marker's trailing text is dropped with a warning, the empty text block
it opened is discarded, and the blank line before the marker stays in the
preceding code block. -/
theorem c3_actual_blocks :
    (getBlocks hashParser specScenarioLines).map
        (fun b => (b.mode, b.content)) =
      [(.text, "Title\n=====\n\ndescription\n"), (.code, "a = 1\n"),
       (.code, "b = 2")] := by
  decide

/-- Claim C4, counterexample: on `"# A\n\nx = 1\n\n# %%\n# b"` the reported
start lines are `[-1, 2, 3]` while the blocks' first consumed lines are
`[0, 2, 4]`: the first (unmarked) text block reports one less than its first
line while the mid-file code block reports exactly its 0-based first line,
so no single 0- or 1-based convention fits — indeed `-1` is no 0- or 1-based
index of any line at all. -/
theorem c4_counterexample :
    ((getBlocks hashParser mixedStartLines).map Block.startLine =
      [-1, 2, 3]) ∧
    ((getBlocks hashParser mixedStartLines).map Block.spanStart =
      [0, 2, 4]) ∧
    ((-1 : Int) - 0 ≠ 2 - 2) ∧ ((-1 : Int) < 0) := by
  decide

/-- Claim C4, amended: for every input and every emitted block, the reported
start line equals the 0-based index of the block's first consumed line,
minus one if the block is the unmarked first text block, and minus one more
if the block was flushed at end of input. -/
theorem c4_amended (p : GalleryParser) (lines : List (Tok × List Char))
    (b : Block) (hb : b ∈ getBlocks p lines) :
    b.startLine = (b.spanStart : Int) -
      (if b.openedFirstText then 1 else 0) -
      (if b.closedBy = CloseReason.endOfInput then 1 else 0) :=
  ((getBlocks_ok p lines).2.1 b hb).1

/-- Witness for `c4_amended` at a concrete input. -/
theorem c4_amended_witness :
    (Block.mk .code "x = 1\n" 2 2 4 false .markerLine ∈
        getBlocks hashParser mixedStartLines) ∧
    (Block.mk .code "x = 1\n" 2 2 4 false .markerLine).startLine =
      ((Block.mk .code "x = 1\n" 2 2 4 false .markerLine).spanStart : Int) -
      (if (Block.mk .code "x = 1\n" 2 2 4 false
          .markerLine).openedFirstText then 1 else 0) -
      (if (Block.mk .code "x = 1\n" 2 2 4 false .markerLine).closedBy =
          CloseReason.endOfInput then 1 else 0) :=
  ⟨by decide, c4_amended hashParser mixedStartLines _ (by decide)⟩

/-- Claim C9, counterexample: on `"# \n#\n\nx = 1"` the leading text block
accumulates two blank lines and is emitted with content `""`, which does not
end with a trailing line break. -/
theorem c9_counterexample :
    ((getBlocks hashParser allBlankTextLines).map
        (fun b => (b.mode, b.content)) = [(.text, ""), (.code, "x = 1")]) ∧
    ¬ ("" : String).endsWith "\n" := by
  decide



/-! ### Claims C7 and C8 -/

theorem cleanupStep_foldl (cl : List Char → Option Nat) :
    ∀ (ls : List (List Char)) (bAcc : Bool) (a : Nat),
    ls.foldl (cleanupStep cl) (bAcc, a) =
      (bAcc || ls.any (fun l => (cl l).isSome),
       (ls.filterMap (fun l => match cl l with
          | some k => if k < l.length then some k else none
          | none => none)).foldl min a)
  | [], bAcc, a => by simp
  | l :: ls, bAcc, a => by
    rcases hcl : cl l with _ | k
    · simp [cleanupStep, hcl, cleanupStep_foldl cl ls]
    · by_cases hk : k < l.length
      · simp [cleanupStep, hcl, hk, cleanupStep_foldl cl ls]
      · simp [cleanupStep, hcl, hk, cleanupStep_foldl cl ls]

/-- Claim C7, counterexample: for the unmarked first text block of a file
(where `start_text == self.continue_text`) the source sets `first_line = 1`,
so the opener line's kept text is **excluded** from cleanup, while the claim
prescribes candidates "from index 0 if it was the unmarked first block".  On
the accumulated block `["AB", " * Title", ""]` (from a file starting
`/* AB`), the code leaves `"AB"` intact but the claim's rule would strip 3
characters from it. -/
theorem c7_counterexample :
    cleanupMultiline cStyleCleanup 1 ["AB".data, " * Title".data, "".data] ≠
      cleanupClaimedC7 cStyleCleanup false
        ["AB".data, " * Title".data, "".data] := by
  decide

/-- Claim C7, amended: `cleanup_multiline` skips index 0 exactly for the
unmarked **first** text block (and processes all lines of a marker-opened
block), and the strip amount is the minimum of the block's maximal line
length and the match lengths of candidate lines matched on a proper prefix;
stripping happens when any candidate matched and the amount is non-zero
(`cleanupAmendedC7` states this rule; the theorem proves it equal to the
source's `cleanup_multiline` for both values of the
`start_text == self.continue_text` test). -/
theorem c7_amended (cl : List Char → Option Nat) (b : Bool)
    (lines : List (List Char)) :
    cleanupMultiline cl (if b then 1 else 0) lines =
      cleanupAmendedC7 cl b lines := by
  unfold cleanupMultiline cleanupAmendedC7
  simp only [cleanupStep_foldl, Bool.false_or]

/-- Claim C8, counterexample: for Julia the probe accepts the hash-equals
block convention (and not slash-star), so a multiline-end pattern **is**
registered, yet the selected cleanup pattern is the whitespace-only `\s*` —
the decorative-continuation-absorbing pattern is tied to `/\*`
specifically. -/
theorem c8_counterexample :
    ((detectComments juliaProbe).2).isSome = true ∧
    detectCleanup juliaProbe = CleanupKind.wsOnly := by
  decide

/-- Claim C8, amended: the cleanup pattern absorbs a leading decorative `*`
if and only if the slash-star convention specifically was accepted, while a
multiline-end pattern is registered whenever any block convention
(slash-star or hash-equals) was accepted. -/
theorem c8_amended (p : Probe) :
    (detectCleanup p = CleanupKind.absorbStar ↔ p.slashStar = true) ∧
    (((detectComments p).2).isSome ↔ (p.slashStar || p.hashEq) = true) := by
  obtain ⟨h1, h2, h3, h4, h5, h6, h7⟩ := p
  revert h1 h2 h3 h4 h5 h6 h7
  decide



/-! ### Normal forms for text-block content (claim C9) -/

/-- Drop trailing blank lines. -/
def dropTrailingBlank (ls : List (List Char)) : List (List Char) :=
  (ls.reverse.dropWhile isBlankL).reverse

/-- Drop leading and trailing blank lines. -/
def trimBlank (ls : List (List Char)) : List (List Char) :=
  dropTrailingBlank (ls.dropWhile isBlankL)

/-- `cs` ends with exactly one line break: it is `pre ++ ['\n']` where `pre`
does not itself end in a line break. -/
def endsSingleNl (cs : List Char) : Prop :=
  ∃ pre, cs = pre ++ ['\n'] ∧ pre.getLast? ≠ some '\n'


/-! ### Text-block finalization: claim C9 -/

theorem splitNl_nlfree : ∀ (l : List Char), '\n' ∉ l → splitNl l = [l]
  | [], _ => rfl
  | c :: cs, h => by
    have hc : ¬ c = '\n' := fun hh => h (hh ▸ List.mem_cons_self c cs)
    have ih := splitNl_nlfree cs (fun hm => h (List.mem_cons_of_mem c hm))
    simp only [splitNl, if_neg hc, ih]

theorem splitNl_cons_nl (x rest : List Char) (hx : '\n' ∉ x) :
    splitNl (x ++ '\n' :: rest) = x :: splitNl rest := by
  induction x with
  | nil => simp [splitNl]
  | cons c cs ih =>
    have hc : ¬ c = '\n' := fun hh => hx (hh ▸ List.mem_cons_self c cs)
    have ih2 := ih (fun hm => hx (List.mem_cons_of_mem c hm))
    simp only [List.cons_append, splitNl, if_neg hc, List.append_eq, ih2]

theorem joinNl_append_singleton (X : List (List Char)) (b : List Char)
    (h : X ≠ []) : joinNl (X ++ [b]) = joinNl X ++ '\n' :: b := by
  induction X with
  | nil => exact absurd rfl h
  | cons l ls ih =>
    cases ls with
    | nil => simp [joinNl]
    | cons m ms =>
      have := ih (by simp)
      simp only [List.cons_append, joinNl, List.append_eq] at this ⊢
      rw [this]
      simp

theorem splitNl_joinNl : ∀ (X : List (List Char)), X ≠ [] →
    (∀ l ∈ X, '\n' ∉ l) → splitNl (joinNl X) = X
  | [], h, _ => absurd rfl h
  | [x], _, hf => by
    simp only [joinNl]
    exact splitNl_nlfree x (hf x (by simp))
  | x :: y :: ys, _, hf => by
    have ih := splitNl_joinNl (y :: ys) (by simp)
      (fun l hl => hf l (List.mem_cons_of_mem x hl))
    simp only [joinNl] at ih ⊢
    rw [splitNl_cons_nl x _ (hf x (by simp)), ih]



theorem lcp_prefix_left : ∀ a b : List Char, lcp a b <+: a
  | [], _ => by simp [lcp]
  | _ :: _, [] => by simp [lcp]
  | a :: as, b :: bs => by
    by_cases hab : a = b
    · simp only [lcp, if_pos hab]
      obtain ⟨t, ht⟩ := lcp_prefix_left as bs
      exact ⟨t, by simp [ht]⟩
    · simp [lcp, hab]

theorem lcp_prefix_right : ∀ a b : List Char, lcp a b <+: b
  | [], _ => by simp [lcp]
  | _ :: _, [] => by simp [lcp]
  | a :: as, b :: bs => by
    by_cases hab : a = b
    · simp only [lcp, if_pos hab]
      obtain ⟨t, ht⟩ := lcp_prefix_right as bs
      subst hab
      exact ⟨t, by simp [ht]⟩
    · simp [lcp, hab]

theorem foldl_lcp_pref (ys : List (List Char)) :
    ∀ i : List Char, (ys.foldl lcp i <+: i) ∧ ∀ y ∈ ys, ys.foldl lcp i <+: y := by
  induction ys with
  | nil => exact fun i => ⟨List.prefix_refl i, by simp⟩
  | cons y ys ih =>
    intro i
    have h := ih (lcp i y)
    refine ⟨h.1.trans (lcp_prefix_left i y), ?_⟩
    intro z hz
    rcases List.mem_cons.mp hz with hz | hz
    · subst hz
      exact h.1.trans (lcp_prefix_right i z)
    · exact h.2 z hz

theorem marginOf_prefix {ls : List (List Char)} {l : List Char}
    (h : l ∈ ls.filter isContentLine) : marginOf ls <+: indentOf l := by
  unfold marginOf
  rcases hf : ls.filter isContentLine with _ | ⟨c, rest⟩
  · rw [hf] at h
    exact absurd h (List.not_mem_nil l)
  · rw [hf] at h
    rcases List.mem_cons.mp h with hl | hl
    · subst hl
      exact (foldl_lcp_pref (rest.map indentOf) (indentOf l)).1
    · exact (foldl_lcp_pref (rest.map indentOf) (indentOf c)).2
        (indentOf l) (List.mem_map_of_mem indentOf hl)

theorem indent_lt_content : ∀ {l : List Char}, isContentLine l = true →
    (indentOf l).length < l.length := by
  intro l
  induction l with
  | nil => intro h; simp [isContentLine] at h
  | cons c cs ih =>
    intro h
    by_cases hc : isSpaceTab c = true
    · have : isContentLine cs = true := by
        simp only [isContentLine, List.any_cons, hc] at h ⊢
        simpa using h
      simp only [indentOf, List.takeWhile_cons, hc, if_pos]
      simp only [List.length_cons]
      exact Nat.succ_lt_succ (ih this)
    · simp only [indentOf, List.takeWhile_cons]
      simp [hc]

theorem getLast?_drop_of_lt {l : List Char} {k : Nat} (h : k < l.length) :
    (l.drop k).getLast? = l.getLast? := by
  conv_rhs => rw [← List.take_append_drop k l]
  rw [List.getLast?_append_of_ne_nil]
  intro he
  have := congrArg List.length he
  simp only [List.length_drop, List.length_nil] at this
  omega

theorem stripMargin_content {m l : List Char} (hm : m <+: indentOf l)
    (hc : isContentLine l = true) :
    stripMargin m l = l.drop m.length ∧ l.drop m.length ≠ [] ∧
      (l.drop m.length).getLast? = l.getLast? := by
  have hml : m <+: l := hm.trans (List.takeWhile_prefix isSpaceTab)
  have hlen : m.length < l.length :=
    Nat.lt_of_le_of_lt hm.length_le (indent_lt_content hc)
  refine ⟨?_, ?_, getLast?_drop_of_lt hlen⟩
  · unfold stripMargin
    rw [if_pos (List.isPrefixOf_iff_prefix.mpr hml)]
  · intro he
    have := congrArg List.length he
    simp only [List.length_drop, List.length_nil] at this
    omega



theorem takeWhile_append_all {p : List Char → Bool} :
    ∀ (xs ys : List (List Char)), (∀ x ∈ xs, p x = true) →
    (xs ++ ys).takeWhile p = xs ++ ys.takeWhile p
  | [], ys, _ => by simp
  | x :: xs, ys, h => by
    have hx : p x = true := h x (by simp)
    simp only [List.cons_append, List.takeWhile_cons, hx, if_pos]
    rw [takeWhile_append_all xs ys (fun z hz => h z (List.mem_cons_of_mem x hz))]

/-- The head of a non-empty `dropWhile` result fails the predicate. -/
theorem dropWhile_head_false {p : List Char → Bool} :
    ∀ {l : List (List Char)} {x : List Char} {xs : List (List Char)},
    l.dropWhile p = x :: xs → p x = false := by
  intro l
  induction l with
  | nil => intro x xs h; cases h
  | cons a as ih =>
    intro x xs h
    by_cases ha : p a = true
    · rw [List.dropWhile_cons, if_pos ha] at h
      exact ih h
    · rw [List.dropWhile_cons, if_neg ha] at h
      cases h
      exact Bool.eq_false_iff.mpr ha

theorem pyFirstIdx_eq : ∀ {block : List (List Char)},
    (∃ l ∈ block, isBlankL l = false) →
    pyFirstIdx block = (block.takeWhile isBlankL).length := by
  intro block
  induction block with
  | nil => intro h; simp at h
  | cons b bs ih =>
    intro h
    by_cases hb : isBlankL b = true
    · have hbs : ∃ l ∈ bs, isBlankL l = false := by
        obtain ⟨l, hl, hnl⟩ := h
        rcases List.mem_cons.mp hl with rfl | hl
        · rw [hb] at hnl
          cases hnl
        · exact ⟨l, hl, hnl⟩
      have ihe := ih hbs
      obtain ⟨l, hl, hnl⟩ := hbs
      have hsome : (List.findIdx? (fun l => !isBlankL l) bs).isSome = true := by
        rw [List.findIdx?_isSome]
        exact List.any_eq_true.mpr ⟨l, hl, by simp [hnl]⟩
      rcases hfi : List.findIdx? (fun l => !isBlankL l) bs with _ | i
      · rw [hfi] at hsome
        cases hsome
      · unfold pyFirstIdx at ihe ⊢
        rw [List.findIdx?_cons, if_neg (by simp [hb]), List.findIdx?_succ,
          hfi]
        rw [hfi] at ihe
        simp only [Option.map_some, Option.map_some'] at ihe ⊢
        rw [List.takeWhile_cons, if_pos hb]
        simp only [List.length_cons]
        omega
    · unfold pyFirstIdx
      rw [List.findIdx?_cons]
      simp only [hb]
      rw [List.takeWhile_cons]
      simp [hb]



/-- Decomposition of a block with at least one non-blank line into leading
blanks, trimmed middle, and trailing blanks. -/
theorem block_decomp {block : List (List Char)}
    (h : ∃ l ∈ block, isBlankL l = false) :
    ∃ A mid B : List (List Char),
      block = A ++ mid ++ B ∧
      A = block.takeWhile isBlankL ∧
      mid = trimBlank block ∧
      (∀ x ∈ B, isBlankL x = true) ∧
      mid ≠ [] ∧
      mid.getLast? ≠ none ∧
      (∀ z, mid.getLast? = some z → isBlankL z = false) ∧
      (block.reverse.takeWhile isBlankL).length = B.length := by
  set A := block.takeWhile isBlankL with hA
  set C := block.dropWhile isBlankL with hC
  have hAC : A ++ C = block := List.takeWhile_append_dropWhile isBlankL block
  have hCne : C ≠ [] := by
    intro he
    rw [List.dropWhile_eq_nil_iff] at he
    obtain ⟨l, hl, hnl⟩ := h
    rw [he l hl] at hnl
    cases hnl
  obtain ⟨c0, C', hC0⟩ := List.exists_cons_of_ne_nil hCne
  have hc0 : isBlankL c0 = false := dropWhile_head_false (hC ▸ hC0)
  set B' := C.reverse.takeWhile isBlankL with hB'
  set D := C.reverse.dropWhile isBlankL with hD
  have hBD : B' ++ D = C.reverse := List.takeWhile_append_dropWhile isBlankL C.reverse
  have hDne : D ≠ [] := by
    intro he
    rw [hD, List.dropWhile_eq_nil_iff] at he
    have : c0 ∈ C.reverse := by
      rw [hC0]
      simp
    rw [he c0 this] at hc0
    cases hc0
  obtain ⟨d0, D', hD0⟩ := List.exists_cons_of_ne_nil hDne
  have hd0 : isBlankL d0 = false := dropWhile_head_false (hD ▸ hD0)
  refine ⟨A, D.reverse, B'.reverse, ?_, rfl, ?_, ?_, ?_, ?_, ?_, ?_⟩
  · -- block = A ++ D.reverse ++ B'.reverse
    have : (B' ++ D).reverse = C.reverse.reverse := by rw [hBD]
    rw [List.reverse_append, List.reverse_reverse] at this
    rw [List.append_assoc, this, hAC]
  · -- D.reverse = trimBlank block
    rw [trimBlank, dropTrailingBlank, ← hC, ← hD]
  · -- all of B'.reverse blank
    intro x hx
    rw [List.mem_reverse] at hx
    exact List.mem_takeWhile_imp hx
  · -- mid ≠ []
    simp [hDne]
  · -- getLast? ≠ none
    rw [hD0]
    simp
  · -- getLast nonblank
    intro z hz
    rw [hD0, List.reverse_cons, List.getLast?_concat] at hz
    cases hz
    exact hd0
  · -- trailing blank count of block equals B'.length
    have hrev : block.reverse = B' ++ (D ++ A.reverse) := by
      rw [← hAC, List.reverse_append, hBD.symm]
      simp [List.append_assoc]
    rw [hrev, takeWhile_append_all _ _
      (fun x hx => List.mem_takeWhile_imp (hB' ▸ hx))]
    rw [hD0]
    simp only [List.cons_append, List.takeWhile_cons, hd0]
    simp



theorem stripMargin_nil (m : List Char) : stripMargin m [] = [] := by
  unfold stripMargin
  cases m with
  | nil => simp
  | cons c cs => simp [List.isPrefixOf]

theorem normBlankLine_spacetab {l : List Char} (h : l.all isSpaceTab = true) :
    normBlankLine l = [] := by
  unfold normBlankLine
  cases l with
  | nil => simp
  | cons c cs => simp [h]

theorem normBlankLine_content {l : List Char} (h : isContentLine l = true) :
    normBlankLine l = l := by
  unfold normBlankLine
  have : l.all isSpaceTab = false := by
    rw [List.all_eq_false]
    rw [isContentLine, List.any_eq_true] at h
    obtain ⟨c, hc, hcc⟩ := h
    exact ⟨c, hc, by simpa using hcc⟩
  simp [this]

theorem dedentLines_append_blank {X : List (List Char)} {z : List Char}
    (hz : z.all isSpaceTab = true) :
    dedentLines (X ++ [z]) = dedentLines (X ++ [[]]) := by
  unfold dedentLines
  have h0 : normBlankLine ([] : List Char) = [] := by
    unfold normBlankLine
    simp
  have h1 : (X ++ [z]).map normBlankLine = (X ++ [[]]).map normBlankLine := by
    simp [normBlankLine_spacetab hz, h0]
  rw [h1]

theorem dedent_join_append {mid : List (List Char)} (z : List Char)
    (_hmid : mid ≠ []) (hnl : ∀ l ∈ mid, '\n' ∉ l) (hznl : '\n' ∉ z)
    (hz : z.all isSpaceTab = true) :
    pyDedentL (joinNl (mid ++ [z])) = joinNl (dedentLines (mid ++ [[]])) := by
  unfold pyDedentL
  rw [splitNl_joinNl (mid ++ [z]) (by simp) ?nlf, dedentLines_append_blank hz]
  case nlf =>
    intro l hl
    rcases List.mem_append.mp hl with hl | hl
    · exact hnl l hl
    · rw [List.mem_singleton] at hl
      subst hl
      exact hznl

theorem joinNl_getLast {z : List Char} :
    ∀ {Y : List (List Char)}, Y.getLast? = some z → z ≠ [] →
    (joinNl Y).getLast? = z.getLast?
  | [], hY, _ => by cases hY
  | [y], hY, hz => by
    simp only [List.getLast?_singleton, Option.some.injEq] at hY
    subst hY
    rfl
  | y :: y2 :: ys, hY, hz => by
    rw [List.getLast?_cons_cons] at hY
    have ih := @joinNl_getLast z (y2 :: ys) hY hz
    show (y ++ '\n' :: joinNl (y2 :: ys)).getLast? = z.getLast?
    rw [List.getLast?_append_of_ne_nil _ (by simp)]
    have hne : joinNl (y2 :: ys) ≠ [] := by
      intro he
      rw [he] at ih
      rcases z with _ | ⟨c, cs⟩
      · exact hz rfl
      · have h2 : ((c :: cs).getLast?).isSome = true :=
          List.getLast?_isSome.mpr (by simp)
        rw [← ih] at h2
        simp at h2
    obtain ⟨j, js, hj⟩ := List.exists_cons_of_ne_nil hne
    rw [hj] at ih ⊢
    rw [List.getLast?_cons_cons]
    exact ih



theorem pySlice_eq {block : List (List Char)}
    (h : ∃ l ∈ block, isBlankL l = false) :
    ∃ z, (z = [] ∨ (z ∈ block ∧ isBlankL z = true)) ∧
      pySlice (block ++ [[]]) (pyFirstIdx block) (pyCut block)
        = trimBlank block ++ [z] := by
  obtain ⟨A, mid, B, hdec, hA, hmid, hBblank, hmidne, hline, hlast, ht⟩ :=
    block_decomp h
  have hfi : pyFirstIdx block = A.length := by
    rw [pyFirstIdx_eq h, hA]
  have hlen : block.length = A.length + mid.length + B.length := by
    rw [hdec]
    simp only [List.length_append]
  have hmidlen : 1 ≤ mid.length := by
    rcases mid with _ | _
    · exact absurd rfl hmidne
    · simp
  rcases hB : B with _ | ⟨b0, B2⟩
  · -- no trailing blank lines: the cut is None and the slice keeps the
    -- appended final ""
    have ht0 : (block.reverse.takeWhile isBlankL).length = 0 := by
      rw [ht, hB]
      rfl
    have hcut : pyCut block = none := by
      unfold pyCut
      rw [ht0]
      rw [if_neg (by omega), if_pos rfl]
    refine ⟨[], Or.inl rfl, ?_⟩
    rw [hcut, hfi]
    unfold pySlice
    rw [← hmid]
    rw [hdec, hB]
    rw [List.append_nil, List.append_assoc, List.drop_left]
  · -- at least one trailing blank: the slice cuts the appended "" and the
    -- later trailing blanks but keeps the first trailing blank line
    have htB : (block.reverse.takeWhile isBlankL).length = B2.length + 1 := by
      rw [ht, hB]
      simp
    have hcut : pyCut block = some (B2.length + 1) := by
      unfold pyCut
      rw [htB]
      rw [if_neg ?hx1, if_neg (by omega)]
      case hx1 =>
        rw [hB] at hlen
        simp only [List.length_cons] at hlen
        omega
    refine ⟨b0, Or.inr ⟨by rw [hdec, hB]; simp, hBblank b0 (by rw [hB]; simp)⟩, ?_⟩
    rw [hcut, hfi]
    show ((block ++ [[]]).take
        ((block ++ [[]]).length - (B2.length + 1))).drop A.length
      = trimBlank block ++ [b0]
    rw [← hmid]
    have hlen2 : (block ++ [[]]).length - (B2.length + 1)
        = A.length + (mid.length + 1) := by
      simp only [List.length_append, List.length_cons, List.length_nil]
      rw [hB] at hlen
      simp only [List.length_cons] at hlen
      omega
    rw [hlen2, hdec, hB]
    have hre : (A ++ mid ++ b0 :: B2) ++ [[]]
        = A ++ (mid ++ (b0 :: (B2 ++ [[]]))) := by
      simp [List.append_assoc]
    rw [hre, List.take_append, List.take_append]
    have : List.take 1 (b0 :: (B2 ++ [[]])) = [b0] := by
      simp
    rw [this, List.drop_left]



theorem isSpaceTab_pyIsSpace {c : Char} (h : isSpaceTab c = true) :
    pyIsSpace c = true := by
  rw [isSpaceTab] at h
  rcases Bool.or_eq_true_iff.mp h with h | h <;> simp [pyIsSpace, h]

theorem nonblank_content {l : List Char} (h : isBlankL l = false) :
    isContentLine l = true := by
  rw [isBlankL, List.all_eq_false] at h
  obtain ⟨c, hc, hcp⟩ := h
  rw [isContentLine, List.any_eq_true]
  refine ⟨c, hc, ?_⟩
  have hcf : isSpaceTab c = false := by
    rcases hst : isSpaceTab c with _ | _
    · rfl
    · exact absurd (isSpaceTab_pyIsSpace hst) hcp
  simp [hcf]

theorem c9_part_a (block : List (List Char)) (n : Nat)
    (h : ∃ l ∈ block, isBlankL l = false)
    (hwf : ∀ l ∈ block, '\n' ∉ l ∧
      (isBlankL l = true → l.all isSpaceTab = true)) :
    (finalizeText block n).1 =
      ⟨pyDedentL (joinNl (trimBlank block ++ [[]]))⟩ ∧
    endsSingleNl (finalizeText block n).1.data := by
  obtain ⟨z, hzc, hslice⟩ := pySlice_eq h
  obtain ⟨A, mid, B, hdec, _, hmid, _, hmidne0, _, hlast0, _⟩ := block_decomp h
  have hmidsub : ∀ l ∈ trimBlank block, l ∈ block := by
    intro l hl
    rw [← hmid] at hl
    rw [hdec]
    simp only [List.mem_append]
    exact Or.inl (Or.inr hl)
  have hmidne : trimBlank block ≠ [] := hmid ▸ hmidne0
  have hmlast : ∀ w, (trimBlank block).getLast? = some w → isBlankL w = false :=
    fun w hw => hlast0 w (by rw [hmid]; exact hw)
  have hmidnl : ∀ l ∈ trimBlank block, '\n' ∉ l :=
    fun l hl => (hwf l (hmidsub l hl)).1
  have hznl : '\n' ∉ z ∧ z.all isSpaceTab = true := by
    rcases hzc with rfl | ⟨hm, hb⟩
    · simp
    · exact ⟨(hwf z hm).1, (hwf z hm).2 hb⟩
  have hEQ : (finalizeText block n).1 =
      ⟨joinNl (dedentLines (trimBlank block ++ [[]]))⟩ := by
    unfold finalizeText
    simp only
    rw [hslice]
    exact congrArg String.mk
      (dedent_join_append z hmidne hmidnl hznl.1 hznl.2)
  refine ⟨?_, ?_⟩
  · rw [hEQ]
    exact congrArg String.mk
      (dedent_join_append [] hmidne hmidnl (by simp) (by simp)).symm
  · rw [hEQ]
    show endsSingleNl (joinNl (dedentLines (trimBlank block ++ [[]])))
    obtain ⟨zm, hzm⟩ := Option.isSome_iff_exists.mp
      (List.getLast?_isSome.mpr hmidne)
    have hzmb : isBlankL zm = false := hmlast zm hzm
    have hzmmem : zm ∈ trimBlank block := List.mem_of_mem_getLast? hzm
    have hzmnl : '\n' ∉ zm := hmidnl zm hzmmem
    have hzmcontent : isContentLine zm = true := nonblank_content hzmb
    have hzmnb : normBlankLine zm = zm := normBlankLine_content hzmcontent
    have hnb0 : normBlankLine ([] : List Char) = [] := by
      unfold normBlankLine
      simp
    have hD : dedentLines (trimBlank block ++ [[]]) =
        ((trimBlank block).map normBlankLine).map
            (stripMargin (marginOf
              ((trimBlank block ++ [[]]).map normBlankLine))) ++ [[]] := by
      unfold dedentLines
      simp only [List.map_append, List.map_cons, List.map_nil, hnb0,
        stripMargin_nil]
    have hmem2 : zm ∈ ((trimBlank block ++ [[]]).map normBlankLine).filter
        isContentLine := by
      rw [List.mem_filter]
      refine ⟨?_, hzmcontent⟩
      rw [List.mem_map]
      exact ⟨zm, by simp [hzmmem], hzmnb⟩
    have hpref := marginOf_prefix hmem2
    obtain ⟨hsm, hne, hgl⟩ := stripMargin_content hpref hzmcontent
    set M := marginOf ((trimBlank block ++ [[]]).map normBlankLine) with hM
    set W := ((trimBlank block).map normBlankLine).map (stripMargin M)
      with hW
    have hWlast : W.getLast? = some (stripMargin M zm) := by
      rw [hW, List.getLast?_map, List.getLast?_map, hzm]
      simp [hzmnb]
    have hWne : W ≠ [] := by
      intro he
      rw [he] at hWlast
      cases hWlast
    rw [hD, joinNl_append_singleton _ _ hWne]
    refine ⟨joinNl W, rfl, ?_⟩
    rw [joinNl_getLast hWlast (by rw [hsm]; exact hne)]
    rw [hsm, hgl]
    intro hc
    exact hzmnl (List.mem_of_mem_getLast? hc)



theorem c9_part_b (block : List (List Char)) (n : Nat) (hne : block ≠ [])
    (hb : ∀ l ∈ block, l.all isSpaceTab = true) :
    (finalizeText block n).1 = if block.length = 1 then "\n" else "" := by
  have hbl : ∀ l ∈ block, isBlankL l = true := by
    intro l hl
    rw [isBlankL, List.all_eq_true]
    intro c hc
    have h2 := hb l hl
    rw [List.all_eq_true] at h2
    exact isSpaceTab_pyIsSpace (h2 c hc)
  have hfi : pyFirstIdx block = block.length - 1 := by
    unfold pyFirstIdx
    rw [List.findIdx?_eq_none_iff.mpr (fun x hx => by simp [hbl x hx])]
  have htall : (block.reverse.takeWhile isBlankL).length = block.length := by
    rw [List.takeWhile_eq_self_iff.mpr
      (fun x hx => hbl x (List.mem_reverse.mp hx))]
    exact List.length_reverse block
  rcases block with _ | ⟨b0, bs⟩
  · exact absurd rfl hne
  rcases bs with _ | ⟨b1, bs2⟩
  · -- a single all-blank line yields "\n"
    have hcut : pyCut [b0] = none := by
      unfold pyCut
      rw [htall, if_pos rfl, if_pos (by simp)]
    unfold finalizeText
    simp only [hcut, hfi]
    show (⟨pyDedentL (joinNl (pySlice ([b0] ++ [[]]) 0 none))⟩ : String) = _
    have hb0st : b0.all isSpaceTab = true := hb b0 (by simp)
    have hb0nl : '\n' ∉ b0 := by
      intro hc
      have := hb b0 (by simp)
      rw [List.all_eq_true] at this
      have := this '\n' hc
      simp [isSpaceTab] at this
    show (⟨pyDedentL (joinNl [b0, []])⟩ : String) = _
    unfold pyDedentL
    rw [splitNl_joinNl [b0, []] (by simp) (by
      intro l hl
      rcases List.mem_cons.mp hl with rfl | hl
      · exact hb0nl
      · rw [List.mem_singleton] at hl
        subst hl
        simp)]
    have hnb0 : normBlankLine ([] : List Char) = [] := by
      unfold normBlankLine
      simp
    have hmarg : dedentLines [b0, []] = [[], []] := by
      unfold dedentLines
      simp only [List.map_cons, List.map_nil, normBlankLine_spacetab hb0st,
        hnb0]
      have : marginOf [([] : List Char), []] = [] := by
        unfold marginOf
        simp [isContentLine]
      rw [this]
      simp [stripMargin_nil]
    rw [hmarg]
    rfl
  · -- two or more all-blank lines yield ""
    have hlen2 : (b0 :: b1 :: bs2).length = bs2.length + 2 := by simp
    have hcut : pyCut (b0 :: b1 :: bs2) =
        some ((b0 :: b1 :: bs2).length - 1) := by
      unfold pyCut
      rw [htall, if_pos rfl, if_neg (by simp)]
    unfold finalizeText
    simp only [hcut, hfi]
    rw [if_neg (by simp)]
    show (⟨pyDedentL (joinNl (pySlice ((b0 :: b1 :: bs2) ++ [[]])
      ((b0 :: b1 :: bs2).length - 1)
      (some ((b0 :: b1 :: bs2).length - 1))))⟩ : String) = _
    have hslice : pySlice ((b0 :: b1 :: bs2) ++ [[]])
        ((b0 :: b1 :: bs2).length - 1)
        (some ((b0 :: b1 :: bs2).length - 1)) =
        List.drop (bs2.length + 1) [b0, b1] := by
      show (((b0 :: b1 :: bs2) ++ [[]]).take
          (((b0 :: b1 :: bs2) ++ [[]]).length -
            ((b0 :: b1 :: bs2).length - 1))).drop
          ((b0 :: b1 :: bs2).length - 1) = _
      have h1 : ((b0 :: b1 :: bs2) ++ [[]]).length -
          ((b0 :: b1 :: bs2).length - 1) = 2 := by
        simp only [List.length_append, List.length_cons, List.length_nil]
        omega
      rw [h1, hlen2]
      have h2 : ((b0 :: b1 :: bs2) ++ [[]]).take 2 = [b0, b1] := by
        simp
      rw [h2]
      congr 1
    rw [hslice]
    rcases bs2 with _ | ⟨b2, bs3⟩
    · -- exactly two lines: the slice is [b1]
      simp only [List.length_nil, Nat.zero_add, List.drop_succ_cons,
        List.drop_zero]
      have hb1st : b1.all isSpaceTab = true := hb b1 (by simp)
      have hb1nl : '\n' ∉ b1 := by
        intro hc
        have := hb b1 (by simp)
        rw [List.all_eq_true] at this
        have := this '\n' hc
        simp [isSpaceTab] at this
      show (⟨pyDedentL (joinNl [b1])⟩ : String) = _
      unfold pyDedentL
      rw [splitNl_joinNl [b1] (by simp) (by
        intro l hl
        rw [List.mem_singleton] at hl
        subst hl
        exact hb1nl)]
      have hded : dedentLines [b1] = [[]] := by
        unfold dedentLines
        simp only [List.map_cons, List.map_nil, normBlankLine_spacetab hb1st]
        have : marginOf [([] : List Char)] = [] := by
          unfold marginOf
          simp [isContentLine]
        rw [this]
        simp [stripMargin_nil]
      rw [hded]
      rfl
    · -- three or more lines: the slice is empty
      have : List.drop ((b2 :: bs3).length + 1) [b0, b1] = [] := by
        apply List.drop_eq_nil_of_le
        simp
      rw [this]
      show (⟨pyDedentL []⟩ : String) = _
      unfold pyDedentL
      show (⟨joinNl (dedentLines [[]])⟩ : String) = _
      have hded : dedentLines [[]] = [[]] := by
        unfold dedentLines
        have hnb0 : normBlankLine ([] : List Char) = [] := by
          unfold normBlankLine
          simp
        simp only [List.map_cons, List.map_nil, hnb0]
        have : marginOf [([] : List Char)] = [] := by
          unfold marginOf
          simp [isContentLine]
        rw [this]
        simp [stripMargin_nil]
      rw [hded]
      rfl



/-- Claim C9, amended: every emitted text block whose accumulated lines are
newline-free, whose blank lines consist only of spaces and tabs, and which
has at least one non-blank line, has content equal to the dedent of its
leading-and-trailing-blank-trimmed lines joined with a single appended line
break, and in particular ends with exactly one trailing line break; a text
block whose accumulated lines are all blank instead yields `"\n"` when it
has exactly one line and `""` when it has two or more. -/
theorem c9_amended :
    (∀ (block : List (List Char)) (n : Nat),
      (∃ l ∈ block, isBlankL l = false) →
      (∀ l ∈ block, '\n' ∉ l ∧
        (isBlankL l = true → l.all isSpaceTab = true)) →
      (finalizeText block n).1 =
        ⟨pyDedentL (joinNl (trimBlank block ++ [[]]))⟩ ∧
      endsSingleNl (finalizeText block n).1.data) ∧
    (∀ (block : List (List Char)) (n : Nat), block ≠ [] →
      (∀ l ∈ block, l.all isSpaceTab = true) →
      (finalizeText block n).1 = if block.length = 1 then "\n" else "") :=
  ⟨c9_part_a, c9_part_b⟩

/-- Witness for `c9_amended` at a concrete block. -/
theorem c9_amended_witness :
    (∃ l ∈ [['T'], ([] : List Char)], isBlankL l = false) ∧
    (∀ l ∈ [['T'], ([] : List Char)], '\n' ∉ l ∧
      (isBlankL l = true → l.all isSpaceTab = true)) ∧
    ((finalizeText [['T'], []] 7).1 =
        ⟨pyDedentL (joinNl (trimBlank [['T'], []] ++ [[]]))⟩ ∧
      endsSingleNl (finalizeText [['T'], []] 7).1.data) :=
  ⟨by decide, by decide, c9_amended.1 [['T'], []] 7 (by decide) (by decide)⟩



/-! ### In-file configuration directives

`BlockParser.__init__` builds, for the `#` language
(`comment_start = "(?:#|#=)"`):

```
flag_start = r"^[ \t]*(?:#|#=)\s*"
self.infile_config_pattern = re.compile(
    flag_start + r"sphinx_gallery_([A-Za-z0-9_]+)(\s*=\s*(.+))?[\ \t]*\n?",
    re.MULTILINE)
self.start_ignore_flag = flag_start + "sphinx_gallery_start_ignore"
self.end_ignore_flag = flag_start + "sphinx_gallery_end_ignore"
self.ignore_block_pattern = re.compile(
    rf"{self.start_ignore_flag}(?:[\s\S]*?){self.end_ignore_flag}\n?",
    re.MULTILINE)
```

The matchers below implement these patterns deterministically; greedy
sub-patterns followed by a mandatory non-whitespace literal need no
backtracking (maximal munch is exact), the `(?:#|#=)` alternation tries `#`
first and `#=` second, and the one genuinely backtracking spot —
`\s*(.+)` hitting the end of the string — is resolved explicitly (the
regex engine backtracks `\s*` to the last position holding a
non-newline character). -/

/-- The literal `sphinx_gallery_`. -/
def sgLit : List Char := "sphinx_gallery_".data

def startIgnoreLit : List Char := "sphinx_gallery_start_ignore".data

def endIgnoreLit : List Char := "sphinx_gallery_end_ignore".data

/-- `[A-Za-z0-9_]`. -/
def isWordChar (c : Char) : Bool :=
  ('A' ≤ c && c ≤ 'Z') || ('a' ≤ c && c ≤ 'z') || ('0' ≤ c && c ≤ '9')
    || c = '_'

/-- `\s*` followed by the literal `lit` (which starts with a non-whitespace
character, so maximal munch is exact); returns the rest after the
literal. -/
def matchSpacesLit (lit : List Char) (r : List Char) : Option (List Char) :=
  let r2 := r.dropWhile pyIsSpace
  if lit.isPrefixOf r2 then some (r2.drop lit.length) else none

/-- `^[ \t]*(?:#|#=)\s*lit` at the start of `cs`: leading blanks, the
comment marker (alternative `#` first, then `#=`), whitespace, then the
literal; returns the rest after the literal. -/
def matchFlagAt (lit : List Char) (cs : List Char) : Option (List Char) :=
  match cs.dropWhile isSpaceTab with
  | '#' :: r2 =>
      (matchSpacesLit lit r2).orElse fun _ =>
        match r2 with
        | '=' :: r3 => matchSpacesLit lit r3
        | _ => none
  | _ => none

/-- One match of `infile_config_pattern`. -/
structure ConfigMatch where
  name : List Char
  value : Option (List Char)
  rest : List Char
  endedNl : Bool
deriving Repr

/-- The optional group `(\s*=\s*(.+))?`: whitespace, `=`, whitespace, then
at least one character up to the end of the line.  When the whitespace after
`=` runs to the end of the string, the regex engine backtracks the greedy
`\s*` to the last non-newline whitespace character, which then forms a
one-character value.  Returns the group-3 value and the rest after it. -/
def matchValueGroup (r : List Char) : Option (List Char × List Char) :=
  match r.dropWhile pyIsSpace with
  | '=' :: r2 =>
      let w2 := r2.takeWhile pyIsSpace
      match r2.drop w2.length with
      | [] =>
          match w2.reverse.dropWhile (fun c => c = '\n') with
          | [] => none
          | c :: _ =>
              some ([c], (w2.reverse.takeWhile (fun c => c = '\n')).reverse)
      | r3 =>
          some (r3.takeWhile (fun c => ¬ c = '\n'),
                r3.dropWhile (fun c => ¬ c = '\n'))
  | _ => none

/-- The part of `infile_config_pattern` after the `sphinx_gallery_`
literal: the name, the optional value group, then `[ \t]*\n?`. -/
def matchConfigTail (r : List Char) : Option ConfigMatch :=
  match r.takeWhile isWordChar with
  | [] => none
  | name =>
      let r4 := r.drop name.length
      match matchValueGroup r4 with
      | some (v, r5) =>
          -- `(.+)` is greedy to the end of the line, so `[ \t]*` is empty
          -- and `\n?` takes the newline when present
          match r5 with
          | '\n' :: r6 => some ⟨name, some v, r6, true⟩
          | _ => some ⟨name, some v, r5, false⟩
      | none =>
          match r4.dropWhile isSpaceTab with
          | '\n' :: r6 => some ⟨name, none, r6, true⟩
          | r5 => some ⟨name, none, r5, false⟩

/-- `infile_config_pattern` matched at a line start. -/
def matchConfigAt (cs : List Char) : Option ConfigMatch :=
  match cs.dropWhile isSpaceTab with
  | '#' :: r2 =>
      ((matchSpacesLit sgLit r2).bind matchConfigTail).orElse fun _ =>
        match r2 with
        | '=' :: r3 => (matchSpacesLit sgLit r3).bind matchConfigTail
        | _ => none
  | _ => none

/-- One left-to-right scan of `re.finditer` / `re.subn` with the MULTILINE
`infile_config_pattern`: at every line start the pattern is attempted; on a
match the scan resumes after it, otherwise the character is kept and the
scan moves on.  Returns the text with all matches removed (the `subn`
output) together with the list of `(group 1, group 3)` captures. -/
def configSplit : Nat → Bool → List Char →
    List Char × List (List Char × Option (List Char))
  | 0, _, cs => (cs, [])
  | fuel + 1, atLS, cs =>
    match (if atLS then matchConfigAt cs else none) with
    | some m =>
        let res := configSplit fuel m.endedNl m.rest
        (res.1, (m.name, m.value) :: res.2)
    | none =>
        match cs with
        | [] => ([], [])
        | c :: cs2 =>
            let res := configSplit fuel (c = '\n') cs2
            (c :: res.1, res.2)

/-- The `(group 1, group 3)` captures of `re.finditer(infile_config_pattern,
content)`. -/
def configMatches (cs : List Char) : List (List Char × Option (List Char)) :=
  (configSplit (cs.length + 1) true cs).2

/-- `remove_config_comments`: `re.subn(self.infile_config_pattern, "",
code_block)[0]`. -/
def removeConfigComments (s : String) : String :=
  ⟨(configSplit (s.data.length + 1) true s.data).1⟩

/-- Values produced by literal evaluation. -/
inductive PyLit where
  | int : Int → PyLit
  | str : List Char → PyLit
  | bool : Bool → PyLit
  | noneLit : PyLit
deriving DecidableEq, Repr

def isDigitC (c : Char) : Bool := '0' ≤ c && c ≤ '9'

def digitsToNat (cs : List Char) : Nat :=
  cs.foldl (fun a c => 10 * a + (c.toNat - 48)) 0

/-- Modelled from the spec: `extract_file_config` parses values with
`ast.literal_eval`, Python-library code outside this repository; the spec
(§4.4) prescribes "a restricted literal (numbers, strings, booleans,
null, ...)".  This executable model covers integers, simple quoted strings,
booleans and `None`, with surrounding whitespace tolerated; everything else
fails.  The general theorems quantify over an arbitrary literal parser. -/
def literalEvalModel (cs0 : List Char) : Option PyLit :=
  let cs := ((cs0.dropWhile pyIsSpace).reverse.dropWhile pyIsSpace).reverse
  if cs = "True".data then some (.bool true)
  else if cs = "False".data then some (.bool false)
  else if cs = "None".data then some .noneLit
  else if cs ≠ [] && cs.all isDigitC then some (.int (digitsToNat cs))
  else if cs.take 1 = ['-'] && cs.drop 1 ≠ []
      && (cs.drop 1).all isDigitC then
    some (.int (-(digitsToNat (cs.drop 1) : Int)))
  else if 2 ≤ cs.length && cs.take 1 = ['\x27']
      && cs.drop (cs.length - 1) = ['\x27']
      && ((cs.drop 1).take (cs.length - 2)).all
          (fun c => ¬ c = '\x27' && ¬ c = '\\') then
    some (.str ((cs.drop 1).take (cs.length - 2)))
  else none

/-- Python-dict assignment `conf[name] = value` on an association list. -/
def insertAssoc (m : List (List Char × PyLit)) (k : List Char) (v : PyLit) :
    List (List Char × PyLit) :=
  match m with
  | [] => [(k, v)]
  | (k2, v2) :: rest =>
      if k2 = k then (k2, v) :: rest else (k2, v2) :: insertAssoc rest k v

def lookupAssoc (m : List (List Char × PyLit)) (k : List Char) :
    Option PyLit :=
  match m with
  | [] => none
  | (k2, v) :: rest => if k2 = k then some v else lookupAssoc rest k

/-- The loop body of `extract_file_config`: a match without a value (group 2
missing) is a flag and is skipped (`continue`); a value failing literal
evaluation is warned about and skipped; otherwise `file_conf[name] =
value`. -/
def extractStep (lit : List Char → Option PyLit)
    (conf : List (List Char × PyLit)) (m : List Char × Option (List Char)) :
    List (List Char × PyLit) :=
  match m.2 with
  | none => conf
  | some v =>
      match lit v with
      | none => conf
      | some w => insertAssoc conf m.1 w

/-- `extract_file_config`: fold the loop body over the matches, starting
from the empty mapping. -/
def extractFileConfig (lit : List Char → Option PyLit) (s : String) :
    List (List Char × PyLit) :=
  (configMatches s.data).foldl (extractStep lit) []

/-- The matches whose value parses: the directive occurrences that actually
assign into the mapping, in order. -/
def validPairs (lit : List Char → Option PyLit)
    (ms : List (List Char × Option (List Char))) :
    List (List Char × PyLit) :=
  ms.filterMap (fun m => (m.2.bind lit).map (fun w => (m.1, w)))

/-! ### `remove_ignore_blocks` -/

/-- `re.findall(flag, code_block)` where `flag` is the *string*
`start_ignore_flag`/`end_ignore_flag`: it is compiled **without**
`re.MULTILINE`, so its leading `^` matches only at position 0 and the count
is 1 or 0. -/
def countFlagsAnchored (lit : List Char) (cs : List Char) : Nat :=
  if (matchFlagAt lit cs).isSome then 1 else 0

/-- Scan forward for the earliest line start at which the end-ignore flag
matches (the lazy `(?:[\s\S]*?)` of `ignore_block_pattern` combined with the
`^` inside the end flag); consume the flag and the trailing `\n?`, and
report whether a newline was consumed. -/
def findEndIgnore : Nat → Bool → List Char → Option (List Char × Bool)
  | 0, _, _ => none
  | fuel + 1, atLS, cs =>
      match (if atLS then matchFlagAt endIgnoreLit cs else none) with
      | some r =>
          match r with
          | '\n' :: r2 => some (r2, true)
          | _ => some (r, false)
      | none =>
          match cs with
          | [] => none
          | c :: cs2 => findEndIgnore fuel (c = '\n') cs2

/-- `re.subn(self.ignore_block_pattern, "", code_block)[0]`: at each line
start try the start flag and, when it matches, splice out everything through
the earliest matching end flag (plus one optional newline); when no end
flag follows, the pattern fails at this position and the scan moves on. -/
def ignoreSub : Nat → Bool → List Char → List Char
  | 0, _, cs => cs
  | fuel + 1, atLS, cs =>
      match (if atLS then matchFlagAt startIgnoreLit cs else none) with
      | some r =>
          match findEndIgnore (r.length + 1) false r with
          | some (r2, endedNl) => ignoreSub fuel endedNl r2
          | none =>
              match cs with
              | [] => []
              | c :: cs2 => c :: ignoreSub fuel (c = '\n') cs2
      | none =>
          match cs with
          | [] => []
          | c :: cs2 => c :: ignoreSub fuel (c = '\n') cs2

/-- `remove_ignore_blocks`: count the two flags with the anchored,
non-MULTILINE `re.findall`, raise `ExtensionError` when the counts differ,
else substitute `ignore_block_pattern`. -/
def removeIgnoreBlocks (s : String) : Except String String :=
  if countFlagsAnchored startIgnoreLit s.data ≠
      countFlagsAnchored endIgnoreLit s.data then
    .error ("All \x22sphinx_gallery_start_ignore\x22 flags must have a " ++
      "matching \x22sphinx_gallery_end_ignore\x22 flag!")
  else
    .ok ⟨ignoreSub (s.data.length + 1) true s.data⟩

/-- Modelled from the spec: the claims count "start-ignore flag lines" in
the text (§4.5: fixed-literal flag comment lines), i.e. the number of lines
on which the flag pattern matches. -/
def specFlagLineCount (lit : List Char) (cs : List Char) : Nat :=
  ((splitNl cs).filter (fun l => (matchFlagAt lit l).isSome)).length



/-- `pat` occurs as a contiguous subsequence of the text: it is a prefix of
some suffix. -/
def containsSeq (pat : List Char) : List Char → Bool
  | [] => pat.isPrefixOf []
  | c :: cs => pat.isPrefixOf (c :: cs) || containsSeq pat cs


end BlockParser

/-! ### Claims C5, C6 and C10 -/
namespace BlockParser

theorem containsSeq_of_prefix_suffix {pat s l : List Char}
    (hp : pat.isPrefixOf s = true) (hs : s <:+ l) :
    containsSeq pat l = true := by
  obtain ⟨t, rfl⟩ := hs
  induction t with
  | nil =>
    cases s with
    | nil => simpa [containsSeq] using hp
    | cons c cs => simpa [containsSeq] using Or.inl hp
  | cons c t2 ih =>
    show containsSeq pat (c :: (t2 ++ s)) = true
    rw [containsSeq, ih]
    simp

theorem containsSeq_mono_suffix {pat s l : List Char}
    (h : containsSeq pat s = true) (hs : s <:+ l) :
    containsSeq pat l = true := by
  obtain ⟨t, rfl⟩ := hs
  induction t with
  | nil => exact h
  | cons c t2 ih =>
    show containsSeq pat (c :: (t2 ++ s)) = true
    rw [containsSeq, ih]
    simp

theorem containsSeq_cons_false {pat : List Char} {c : Char} {cs : List Char}
    (h : containsSeq pat (c :: cs) = false) : containsSeq pat cs = false := by
  rw [containsSeq] at h
  exact (Bool.or_eq_false_iff.mp h).2

theorem matchSpacesLit_contains {lit r : List Char} {x : List Char}
    (h : matchSpacesLit lit r = some x) : containsSeq lit r = true := by
  unfold matchSpacesLit at h
  by_cases hp : lit.isPrefixOf (r.dropWhile pyIsSpace) = true
  · exact containsSeq_of_prefix_suffix hp (List.dropWhile_suffix pyIsSpace)
  · rw [if_neg hp] at h
    cases h

theorem bind_tail_contains {r : List Char}
    (h : ((matchSpacesLit sgLit r).bind matchConfigTail).isSome = true) :
    containsSeq sgLit r = true := by
  rcases hm : matchSpacesLit sgLit r with _ | y
  · rw [hm] at h
    cases h
  · exact matchSpacesLit_contains hm

theorem matchConfigAt_contains {cs : List Char} {m : ConfigMatch}
    (h : matchConfigAt cs = some m) : containsSeq sgLit cs = true := by
  unfold matchConfigAt at h
  split at h
  next r2 heq =>
    have hsufcs : ('#' :: r2) <:+ cs :=
      heq ▸ List.dropWhile_suffix isSpaceTab
    have hr2 : containsSeq sgLit r2 = true := by
      rcases ho : (matchSpacesLit sgLit r2).bind matchConfigTail with _ | m2
      · rw [ho] at h
        simp only [Option.orElse] at h
        split at h
        · rename_i r3
          have hc3 : containsSeq sgLit r3 = true := by
            rcases hm3 : matchSpacesLit sgLit r3 with _ | y
            · rw [hm3] at h
              cases h
            · exact matchSpacesLit_contains hm3
          exact containsSeq_mono_suffix hc3 ⟨['='], rfl⟩
        · cases h
      · exact bind_tail_contains (by rw [ho]; rfl)
    exact containsSeq_mono_suffix
      (containsSeq_mono_suffix hr2 ⟨['#'], rfl⟩) hsufcs
  next => cases h

theorem configSplit_no_matches :
    ∀ (fuel : Nat) {cs : List Char} (atLS : Bool),
      containsSeq sgLit cs = false → (configSplit fuel atLS cs).2 = []
  | 0, cs, atLS, _ => rfl
  | fuel + 1, cs, atLS, h => by
    simp only [configSplit]
    rcases hm : (if atLS then matchConfigAt cs else none) with _ | m
    · rcases hcs : cs with _ | ⟨c, cs2⟩
      · rfl
      · simp only
        exact configSplit_no_matches fuel _
          (containsSeq_cons_false (hcs ▸ h))
    · exfalso
      rcases hls : atLS with _ | _
      · rw [hls] at hm
        simp at hm
      · rw [hls] at hm
        simp only [if_pos rfl] at hm
        rw [matchConfigAt_contains hm] at h
        cases h


end BlockParser

namespace BlockParser

theorem getLast?_cons_ne {α : Type} (x : α) {xs : List α} (h : xs ≠ []) :
    (x :: xs).getLast? = xs.getLast? := by
  cases xs with
  | nil => exact absurd rfl h
  | cons y ys => rw [List.getLast?_cons_cons]

theorem lookupAssoc_insertAssoc (conf : List (List Char × PyLit))
    (k : List Char) (v : PyLit) (name : List Char) :
    lookupAssoc (insertAssoc conf k v) name =
      if k = name then some v else lookupAssoc conf name := by
  induction conf with
  | nil =>
    simp only [insertAssoc, lookupAssoc]
  | cons p rest ih =>
    obtain ⟨k2, v2⟩ := p
    simp only [insertAssoc]
    by_cases h2 : k2 = k
    · subst h2
      rw [if_pos rfl]
      simp only [lookupAssoc]
      by_cases h3 : k2 = name <;> simp [h3]
    · rw [if_neg h2]
      simp only [lookupAssoc]
      by_cases h3 : k2 = name
      · subst h3
        rw [if_pos rfl, if_neg (fun hk => h2 hk.symm), if_pos rfl]
      · rw [if_neg h3, if_neg h3]
        exact ih

theorem lookup_extract_foldl (lit : List Char → Option PyLit)
    (name : List Char) :
    ∀ (ms : List (List Char × Option (List Char)))
      (conf : List (List Char × PyLit)),
      lookupAssoc (ms.foldl (extractStep lit) conf) name =
        match ((validPairs lit ms).filter
            (fun p => decide (p.1 = name))).getLast? with
        | some p => some p.2
        | none => lookupAssoc conf name
  | [], conf => by simp [validPairs]
  | (nm, v?) :: ms, conf => by
    simp only [List.foldl]
    rcases hv : v?.bind lit with _ | w
    · have hstep : extractStep lit conf (nm, v?) = conf := by
        unfold extractStep
        rcases hv2 : v? with _ | v
        · rfl
        · rw [hv2] at hv
          simp only [Option.some_bind] at hv
          simp only [hv]
      have hfa : ((fun m => ((m.2.bind lit).map (fun w => (m.1, w))))
          ((nm, v?) : List Char × Option (List Char))) = none := by
        show ((v?.bind lit).map (fun w => (nm, w))) = none
        rw [hv]
        rfl
      have hvp : validPairs lit ((nm, v?) :: ms) = validPairs lit ms := by
        unfold validPairs
        exact List.filterMap_cons_none hfa
      rw [hstep, lookup_extract_foldl lit name ms conf, hvp]
    · have hstep : extractStep lit conf (nm, v?) = insertAssoc conf nm w := by
        unfold extractStep
        rcases hv2 : v? with _ | v
        · rw [hv2] at hv
          simp at hv
        · rw [hv2] at hv
          simp only [Option.some_bind] at hv
          simp only [hv]
      have hfa : ((fun m => ((m.2.bind lit).map (fun w => (m.1, w))))
          ((nm, v?) : List Char × Option (List Char))) = some (nm, w) := by
        show ((v?.bind lit).map (fun w => (nm, w))) = some (nm, w)
        rw [hv]
        rfl
      have hvp : validPairs lit ((nm, v?) :: ms)
          = (nm, w) :: validPairs lit ms := by
        unfold validPairs
        exact List.filterMap_cons_some hfa
      rw [hstep, lookup_extract_foldl lit name ms (insertAssoc conf nm w),
        hvp]
      by_cases hn : nm = name
      · subst hn
        rw [List.filter_cons_of_pos (by simp)]
        rcases hfl : ((validPairs lit ms).filter
            (fun p => decide (p.1 = nm))).getLast? with _ | p
        · have hnil := List.getLast?_eq_none_iff.mp hfl
          rw [hnil]
          simp only [List.getLast?_singleton]
          rw [lookupAssoc_insertAssoc, if_pos rfl]
          rfl
        · have hne : (validPairs lit ms).filter
              (fun p => decide (p.1 = nm)) ≠ [] := by
            intro he
            rw [he] at hfl
            cases hfl
          rw [getLast?_cons_ne _ hne, hfl]
      · rw [List.filter_cons_of_neg (by simp [hn])]
        rcases hfl : ((validPairs lit ms).filter
            (fun p => decide (p.1 = name))).getLast? with _ | p
        · rw [lookupAssoc_insertAssoc, if_neg hn]
        · rw [hfl]

/-- Claim C10, confirmed: for any literal parser, input and directive name,
the value `extract_file_config` reports for the name is the value of the
**last** match of that name whose value parses successfully (`validPairs`
lists exactly the occurrences with valid literal values, in match order);
occurrences whose value is missing or fails to parse are skipped by the
loop and neither overwrite nor remove anything. -/
theorem c10_last_valid_wins (lit : List Char → Option PyLit) (s : String)
    (name : List Char) :
    lookupAssoc (extractFileConfig lit s) name =
      (((validPairs lit (configMatches s.data)).filter
        (fun p => decide (p.1 = name))).getLast?).map (fun p => p.2) := by
  unfold extractFileConfig
  rw [lookup_extract_foldl]
  rcases hfl : ((validPairs lit (configMatches s.data)).filter
      (fun p => decide (p.1 = name))).getLast? with _ | p
  · rw [hfl]
    rfl
  · rw [hfl]
    rfl

end BlockParser

namespace BlockParser

/-- Claim C6, counterexample: `extract_file_config` applied to the output of
`remove_config_comments` is **not** always empty: removing the valueless
match `# sphinx_gallery_a` from `"# sphinx_gallery_a# sphinx_gallery_b = 2"`
splices the remainder to the line start, where `# sphinx_gallery_b = 2` now
matches and yields the mapping `b := 2`. -/
theorem c6_counterexample :
    extractFileConfig literalEvalModel
        (removeConfigComments "# sphinx_gallery_a# sphinx_gallery_b = 2")
      = [("b".data, PyLit.int 2)] ∧
    extractFileConfig literalEvalModel
        (removeConfigComments "# sphinx_gallery_a# sphinx_gallery_b = 2")
      ≠ [] := by
  constructor
  · decide
  · decide

/-- Claim C6, amended: when the output of `remove_config_comments` no longer
contains the literal `sphinx_gallery_` (the usual case: removal deletes
every matched directive comment and what is spliced together does not
re-form one), `extract_file_config` of that output is the empty mapping,
for any literal parser. -/
theorem c6_amended (lit : List Char → Option PyLit) (text : String)
    (h : containsSeq sgLit (removeConfigComments text).data = false) :
    extractFileConfig lit (removeConfigComments text) = [] := by
  have hm : configMatches (removeConfigComments text).data = [] := by
    unfold configMatches
    exact configSplit_no_matches _ _ h
  unfold extractFileConfig
  rw [hm]
  rfl

/-- Witness for `c6_amended` at a concrete input. -/
theorem c6_amended_witness :
    containsSeq sgLit
        (removeConfigComments "# sphinx_gallery_a = 1\nx\n").data = false ∧
    extractFileConfig literalEvalModel
        (removeConfigComments "# sphinx_gallery_a = 1\nx\n") = [] :=
  ⟨by decide,
   c6_amended literalEvalModel "# sphinx_gallery_a = 1\nx\n" (by decide)⟩

/-- Claim C5, code bug: `remove_ignore_blocks` counts the flags with
`re.findall(self.start_ignore_flag, ...)` where the flag is a plain string
pattern starting with `^`, compiled **without** `re.MULTILINE`; the count is
therefore 1 or 0 (a match at position 0 only), not the number of flag
lines.  On a block whose start flag opens the text and whose end flag sits
on a later line — one start-ignore flag line and one end-ignore flag line,
on which the claim says no error is raised — the code counts 1 against 0
and raises. -/
theorem c5_code_bug :
    (removeIgnoreBlocks
      "# sphinx_gallery_start_ignore\ny = 5\n# sphinx_gallery_end_ignore\n"
      ).isOk = false ∧
    specFlagLineCount startIgnoreLit
      ("# sphinx_gallery_start_ignore\ny = 5\n" ++
        "# sphinx_gallery_end_ignore\n").data = 1 ∧
    specFlagLineCount endIgnoreLit
      ("# sphinx_gallery_start_ignore\ny = 5\n" ++
        "# sphinx_gallery_end_ignore\n").data = 1 := by
  refine ⟨by decide, by decide, by decide⟩

end BlockParser
